import Mathlib

/-!
# Verification of `TxSetFrame` (src/src/herder/TxSetFrame.cpp)

A shallow embedding of the transaction-set frame of the herder module:
canonicalization and content hashing (`sortForHash`, `getContentsHash`),
apply ordering (`sortForApply`), the surge-pricing filter
(`surgePricingFilter`), removal (`removeTx`), and the validation engine
(`checkOrTrim`, `trimInvalid`, `checkValid`).

Machine integers are modelled as `Nat`/`Int`; a 32-byte `Hash` is modelled
as the natural number given by its bytes (lexicographic byte order on
equal-length strings coincides with numeric order, and byte-wise XOR with
bit-wise XOR).  `size_t` subtraction, which wraps, is modelled explicitly
by `subSize`.  External collaborators (SHA-256, per-transaction validity,
whitelist membership, fee ratios, account balances) are parameters of the
development: every theorem holds for all instantiations of them.

`std::sort` receives a strict comparator `lt` and produces a permutation
that is sorted with respect to the reflexive relation `fun a b => ¬ lt b a`;
we model it with `List.insertionSort` over that relation.
-/

namespace TxSetSpec

abbrev Hash := Nat
abbrev AccountID := Nat
abbrev SequenceNumber := Nat
abbrev Envelope := List Nat

/-- A transaction frame, restricted to the observations `TxSetFrame.cpp`
makes of it: source account, sequence number, fee, full hash and wire
envelope.  Context-dependent observations (`checkValid`, `isWhitelisted`,
`getFeeRatio`, source-account balances) are oracles supplied separately. -/
structure Tx where
  sourceID : AccountID
  seqNum : SequenceNumber
  fee : Int
  fullHash : Hash
  envelope : Envelope
deriving DecidableEq

/-- The state of a `TxSetFrame`: parent ledger hash, the transaction list,
and the memoized content hash (`mHash` guarded by `mHashIsValid`). -/
structure TxSetFrame where
  mPreviousLedgerHash : Hash
  mTransactions : List Tx
  mHashIsValid : Bool
  mHash : Hash
deriving DecidableEq

/-- `HashTxSorter`: `tx1->getFullHash() < tx2->getFullHash()`, as the
reflexive total relation `std::sort` establishes. -/
def hashLe (t1 t2 : Tx) : Prop := t1.fullHash ≤ t2.fullHash

instance : DecidableRel hashLe := fun _ _ => Nat.decLe _ _

instance : IsTotal Tx hashLe := ⟨fun _ _ => Nat.le_total _ _⟩

instance : IsTrans Tx hashLe := ⟨fun _ _ _ h1 h2 => Nat.le_trans h1 h2⟩

/-- The strict full-hash order: a `TxSetFrame` is canonical when its list
is sorted strictly ascending by this relation. -/
def hashLt (t1 t2 : Tx) : Prop := t1.fullHash < t2.fullHash

instance : DecidableRel hashLt := fun _ _ => Nat.decLt _ _

instance : IsAntisymm Tx hashLt :=
  ⟨fun _ _ h1 h2 => absurd (Nat.lt_trans h1 h2) (Nat.lt_irrefl _)⟩

/-- §3 invariant 2: the transaction list is sorted strictly ascending by
full hash. -/
def canonical (s : TxSetFrame) : Prop := s.mTransactions.Sorted hashLt

/-- `SeqSorter`: `tx1->getSeqNum() < tx2->getSeqNum()`, reflexive form. -/
def seqLe (t1 t2 : Tx) : Prop := t1.seqNum ≤ t2.seqNum

instance : DecidableRel seqLe := fun _ _ => Nat.decLe _ _

instance : IsTotal Tx seqLe := ⟨fun _ _ => Nat.le_total _ _⟩

instance : IsTrans Tx seqLe := ⟨fun _ _ _ h1 h2 => Nat.le_trans h1 h2⟩

/-- `ApplyTxSorter`: `lessThanXored(tx1.fullHash, tx2.fullHash, setHash)`,
i.e. comparison of the hashes XORed with the set hash; reflexive form. -/
def xorLe (h : Hash) (t1 t2 : Tx) : Prop :=
  t1.fullHash ^^^ h ≤ t2.fullHash ^^^ h

instance (h : Hash) : DecidableRel (xorLe h) := fun _ _ => Nat.decLe _ _

instance (h : Hash) : IsTotal Tx (xorLe h) := ⟨fun _ _ => Nat.le_total _ _⟩

instance (h : Hash) : IsTrans Tx (xorLe h) := ⟨fun _ _ _ h1 h2 => Nat.le_trans h1 h2⟩

/-- `TxSetFrame::sortForHash`: sort `mTransactions` by full hash and
invalidate the memoized content hash. -/
def sortForHash (s : TxSetFrame) : TxSetFrame :=
  { s with mTransactions := s.mTransactions.insertionSort hashLe
           mHashIsValid := false }

section Hashing

-- SHA-256 oracle: digest of `previousLedgerHash` raw bytes followed by the
-- given envelopes' bytes, in order.
variable (sha256 : Hash → List Envelope → Hash)

/-- The content hash `getContentsHash` computes when the cache is invalid:
the digest of the parent hash followed by the wire envelopes in canonical
(full-hash sorted) order. -/
def computeContentsHash (prev : Hash) (txs : List Tx) : Hash :=
  sha256 prev ((txs.insertionSort hashLe).map Tx.envelope)

/-- `TxSetFrame::getContentsHash`: return the cached hash if valid,
otherwise canonicalize, hash `previousLedgerHash` then each envelope in
order, cache the digest and mark the cache valid.  Returns the hash and
the (possibly mutated) frame. -/
def getContentsHash (s : TxSetFrame) : Hash × TxSetFrame :=
  if s.mHashIsValid then (s.mHash, s)
  else
    let s1 := sortForHash s
    let h := sha256 s1.mPreviousLedgerHash (s1.mTransactions.map Tx.envelope)
    (h, { s1 with mHash := h, mHashIsValid := true })

/-- Cache coherence: every frame reachable through the public interface
satisfies this — whenever `mHashIsValid` is set, `mHash` is the content
hash of the current contents. -/
def WF (s : TxSetFrame) : Prop :=
  s.mHashIsValid = true →
    s.mHash = computeContentsHash sha256 s.mPreviousLedgerHash s.mTransactions

end Hashing

/-- `TxSetFrame::removeTx`: erase the first occurrence of `tx` (if present)
and unconditionally invalidate the hash cache. -/
def removeTx (s : TxSetFrame) (tx : Tx) : TxSetFrame :=
  { s with mTransactions := s.mTransactions.erase tx
           mHashIsValid := false }

/-! ## Apply ordering (`sortForApply`) -/

/-- One step of the batch-building loop of `sortForApply`: look up the
per-account counter `v`, grow `txBatches` to `v + 4` entries when
`v >= txBatches.size()`, push the transaction onto `txBatches[v]` and
increment the counter. -/
def batchStep (st : List (List Tx) × (AccountID → Nat)) (tx : Tx) :
    List (List Tx) × (AccountID → Nat) :=
  let v := st.2 tx.sourceID
  let batches :=
    if st.1.length ≤ v then st.1 ++ List.replicate (v + 4 - st.1.length) []
    else st.1
  (batches.set v (batches.getD v [] ++ [tx]),
   Function.update st.2 tx.sourceID (v + 1))

/-- The batch-building loop of `sortForApply`, started from four empty
batches and all per-account counters at zero (`map` defaults). -/
def buildBatches (txs : List Tx) : List (List Tx) :=
  (txs.foldl batchStep (List.replicate 4 [], fun _ => 0)).1

/-- The predicate "belongs to account `A`". -/
def srcF (A : AccountID) : Tx → Bool := fun t => t.sourceID == A

/-- The invariant of the batch-building loop after processing the prefix
`P`: the counter of each account `A` is the number of `A`'s transactions
seen, and per account the batches hold, in order, one singleton for each
of `A`'s transactions seen so far, followed by batches free of `A`. -/
def BatchInv (A : AccountID) (P : List Tx)
    (st : List (List Tx) × (AccountID → Nat)) : Prop :=
  st.2 A = (P.filter (srcF A)).length ∧
  (P.filter (srcF A)).length ≤ st.1.length ∧
  st.1.map (List.filter (srcF A)) =
    (P.filter (srcF A)).map (fun t => [t]) ++
    List.replicate (st.1.length - (P.filter (srcF A)).length) []

section Hashing2

variable (sha256 : Hash → List Envelope → Hash)

/-- `TxSetFrame::sortForApply`: copy `mTransactions`, sort the copy by
sequence number, distribute it into rank-indexed batches, then sort each
batch with `ApplyTxSorter (getContentsHash())` and concatenate.  Each
loop iteration calls `getContentsHash()` on the frame, so the frame state
is threaded through and returned alongside the apply list. -/
def sortForApply (s : TxSetFrame) : List Tx × TxSetFrame :=
  let retList := s.mTransactions.insertionSort seqLe
  let batches := buildBatches retList
  batches.foldl
    (fun acc batch =>
      let hs := getContentsHash sha256 acc.2
      (acc.1 ++ batch.insertionSort (xorLe hs.1), hs.2))
    ([], s)

end Hashing2

/-! ## Surge-pricing filter (`surgePricingFilter`) -/

/-- `size_t` subtraction (wraps modulo `2 ^ 64`); both operands are below
`2 ^ 64`. -/
def subSize (a b : Nat) : Nat := (a + 2 ^ 64 - b) % 2 ^ 64

/-- `size_t` addition (wraps modulo `2 ^ 64`). -/
def addSize (a b : Nat) : Nat := (a + b) % 2 ^ 64

/-- Modelled from the spec: the implementation of
`Whitelist::unwhitelistedReserve` is not under `src/`.  Per §4.3 it
returns "the minimum capacity reserved for non-whitelisted transactions"
out of the capacity `max`, so it is at most `max`. -/
def ReserveWF (unwhitelistedReserve : Nat → Nat) (max : Nat) : Prop :=
  unwhitelistedReserve max ≤ max

section Surge

-- Whitelist / ledger oracles: whitelist membership, per-transaction fee
-- ratio, the reserve for unwhitelisted transactions, and the optional
-- whitelist-holder account.
variable (isWhitelisted : Tx → Bool) (getFeeRatio : Tx → Rat)
variable (unwhitelistedReserve : Nat → Nat) (whitelistID : Option AccountID)

/-- The per-account fee-ratio map of `surgePricingFilter`: a `std::map`
defaulting to `0`, where each transaction's ratio replaces the entry when
the entry is `0` (first assignment) or when it is smaller. -/
def buildFeeMap (txs : List Tx) : AccountID → Rat :=
  txs.foldl
    (fun m tx =>
      let r := getFeeRatio tx
      let now := m tx.sourceID
      if now = 0 then Function.update m tx.sourceID r
      else if r < now then Function.update m tx.sourceID r
      else m)
    (fun _ => 0)

/-- One update of a fee-ratio map entry, as `surgePricingFilter` performs
it: replace when the entry is still `0` (unset) or when the new ratio is
smaller. -/
def feeStep (now r : Rat) : Rat :=
  if now = 0 then r else if r < now then r else now

/-- The strict comparator `SurgeSorter::operator()`: same account → by
sequence number; whitelist-holder transactions first; whitelisted sort →
by source account; otherwise by account fee ratio descending, ties by
source account ascending. -/
def surgeLt (afm : AccountID → Rat) (whitelistedSort : Bool)
    (wlID : Option AccountID) (t1 t2 : Tx) : Bool :=
  if t1.sourceID = t2.sourceID then decide (t1.seqNum < t2.seqNum)
  else
    match wlID with
    | some wl =>
        if t1.sourceID = wl then true
        else if t2.sourceID = wl then false
        else surgeRest afm whitelistedSort t1 t2
    | none => surgeRest afm whitelistedSort t1 t2
where
  surgeRest (afm : AccountID → Rat) (whitelistedSort : Bool)
      (t1 t2 : Tx) : Bool :=
    if whitelistedSort then decide (t1.sourceID < t2.sourceID)
    else
      let fee1 := afm t1.sourceID
      let fee2 := afm t2.sourceID
      if fee1 = fee2 then decide (t1.sourceID < t2.sourceID)
      else decide (fee1 > fee2)

/-- The reflexive relation `std::sort` establishes for `SurgeSorter`. -/
def surgeLe (afm : AccountID → Rat) (whitelistedSort : Bool)
    (wlID : Option AccountID) (t1 t2 : Tx) : Prop :=
  surgeLt afm whitelistedSort wlID t2 t1 = false

instance (afm : AccountID → Rat) (b : Bool) (wlID : Option AccountID) :
    DecidableRel (surgeLe afm b wlID) := fun _ _ => by
  unfold surgeLe; infer_instance

/-- `TxSetFrame::surgePricingFilter` (with `lm.getMaxTxSetSize()` passed as
`max`): when over capacity, partition by whitelisting, clamp the
unwhitelisted reserve, build the fee map, sort and trim the whitelisted
list to `max - reserve` seats, then — unless the unwhitelisted fit into
the remaining capacity — sort the unwhitelisted and remove the suffix
beyond that capacity. -/
def surgePricingFilter (max : Nat) (s : TxSetFrame) : TxSetFrame :=
  if s.mTransactions.length > max then
    let reserve0 := unwhitelistedReserve max
    let whitelisted := s.mTransactions.filter isWhitelisted
    let unwhitelisted := s.mTransactions.filter (fun tx => !isWhitelisted tx)
    let reserveCapacity :=
      if unwhitelisted.length < reserve0 then unwhitelisted.length
      else reserve0
    let accountFeeMap := buildFeeMap getFeeRatio s.mTransactions
    let sortedW :=
      whitelisted.insertionSort (surgeLe accountFeeMap true whitelistID)
    let s1 :=
      if sortedW.length > subSize max reserveCapacity then
        (sortedW.drop (subSize max reserveCapacity)).foldl removeTx s
      else s
    let extraWhitelistCapacity :=
      if sortedW.length > subSize max reserveCapacity then 0
      else subSize (subSize max reserveCapacity) sortedW.length
    let totalCapacity := addSize reserveCapacity extraWhitelistCapacity
    if unwhitelisted.length ≤ totalCapacity then s1
    else
      let tempList :=
        unwhitelisted.insertionSort (surgeLe accountFeeMap false whitelistID)
      (tempList.drop totalCapacity).foldl removeTx s1
  else s

end Surge

/-! ## Validation engine (`checkOrTrim`, `trimInvalid`, `checkValid`) -/

/-- The canonical-order scan at the top of `checkOrTrim`: starting from the
zero hash, require `tx.fullHash >= lastHash` for each transaction in
order. -/
def hashesNonDecreasing : Hash → List Tx → Bool
  | _, [] => true
  | last, tx :: rest =>
      if tx.fullHash < last then false
      else hashesNonDecreasing tx.fullHash rest

section Validation

-- Per-transaction validity (`tx->checkValid(app, lastSeq)`), whitelist
-- membership, and source-account balance oracles.
variable (checkValidTx : Tx → SequenceNumber → Bool)
variable (isWhitelisted : Tx → Bool)
variable (getBalance getMinimumBalance : Tx → Int)

/-- The running state of the per-account loop of `checkOrTrim`: `lastTx`,
`lastSeq`, `totFee`, plus the external state `ext` mutated by the two
policy callbacks (for `trimInvalid`: the frame and the `trimmed` list). -/
structure LoopSt (σ : Type) where
  lastTx : Option Tx
  lastSeq : SequenceNumber
  totFee : Int
  ext : σ

/-- The inner per-account loop of `checkOrTrim`: check each transaction
against the running `lastSeq`; on failure consult `onInvalid` (continue or
abort); on success accumulate the non-whitelisted fee and advance
`lastTx` / `lastSeq`.  `.error` is the `return false` path. -/
def checkAccountTxs {σ : Type} (onInvalid : Tx → SequenceNumber → σ → Bool × σ) :
    List Tx → LoopSt σ → Except σ (LoopSt σ)
  | [], acc => .ok acc
  | tx :: rest, acc =>
      if checkValidTx tx acc.lastSeq then
        checkAccountTxs onInvalid rest
          { lastTx := some tx
            lastSeq := tx.seqNum
            totFee := acc.totFee + (if isWhitelisted tx then 0 else tx.fee)
            ext := acc.ext }
      else
        let c := onInvalid tx acc.lastSeq acc.ext
        if c.1 then checkAccountTxs onInvalid rest { acc with ext := c.2 }
        else .error c.2

/-- One account's processing in `checkOrTrim`: run the inner loop on the
seq-sorted transaction list `item`, then — if any transaction passed —
compare the source account's balance minus the accumulated fee against
its minimum balance, invoking `onInsufficient` on shortfall. -/
def processAccount {σ : Type} (onInvalid : Tx → SequenceNumber → σ → Bool × σ)
    (onInsufficient : List Tx → σ → Bool × σ) (item : List Tx) (st : σ) :
    Except σ σ :=
  match checkAccountTxs checkValidTx isWhitelisted onInvalid item
      ⟨none, 0, 0, st⟩ with
  | .error st1 => .error st1
  | .ok acc =>
      match acc.lastTx with
      | none => .ok acc.ext
      | some lastTx =>
          if getBalance lastTx - acc.totFee < getMinimumBalance lastTx then
            let c := onInsufficient item acc.ext
            if c.1 then .ok c.2 else .error c.2
          else .ok acc.ext

/-- The iteration of `checkOrTrim` over the account map (ascending account
id): each account's list is its transactions in snapshot order, sorted by
sequence number. -/
def goAccounts {σ : Type} (onInvalid : Tx → SequenceNumber → σ → Bool × σ)
    (onInsufficient : List Tx → σ → Bool × σ) (txs : List Tx) :
    List AccountID → σ → Bool × σ
  | [], st => (true, st)
  | a :: rest, st =>
      match processAccount checkValidTx isWhitelisted getBalance
          getMinimumBalance onInvalid onInsufficient
          ((txs.filter (fun tx => tx.sourceID == a)).insertionSort seqLe) st with
      | .error st1 => (false, st1)
      | .ok st1 =>
          goAccounts onInvalid onInsufficient txs rest st1

/-- The ascending list of distinct source accounts of `txs` — the key set
of `accountTxMap` in iteration order. -/
def sortedAccounts (txs : List Tx) : List AccountID :=
  ((txs.map Tx.sourceID).dedup).insertionSort (· ≤ ·)

/-- `TxSetFrame::checkOrTrim`: reject a non-canonical snapshot, then
process each account of the snapshot in ascending account order,
threading the callback state `st`. -/
def checkOrTrim {σ : Type} (onInvalid : Tx → SequenceNumber → σ → Bool × σ)
    (onInsufficient : List Tx → σ → Bool × σ) (txs : List Tx) (st : σ) :
    Bool × σ :=
  if hashesNonDecreasing 0 txs then
    goAccounts checkValidTx isWhitelisted getBalance getMinimumBalance
      onInvalid onInsufficient txs (sortedAccounts txs) st
  else (false, st)

/-- The `processInvalidTxLambda` of `trimInvalid`: append the offender to
`trimmed`, `removeTx` it, continue. -/
def trimOnInvalid (tx : Tx) (_lastSeq : SequenceNumber)
    (st : TxSetFrame × List Tx) : Bool × (TxSetFrame × List Tx) :=
  (true, (removeTx st.1 tx, st.2 ++ [tx]))

/-- The `processInsufficientBalance` of `trimInvalid`: append the whole
account list to `trimmed`, `removeTx` each of its transactions, continue. -/
def trimOnInsufficient (item : List Tx) (st : TxSetFrame × List Tx) :
    Bool × (TxSetFrame × List Tx) :=
  (true, (item.foldl removeTx st.1, st.2 ++ item))

/-- `TxSetFrame::trimInvalid`: canonicalize, then run `checkOrTrim` with
the continue-semantics callbacks that append each offender to `trimmed`
and `removeTx` it — on insufficient balance, the account's whole list. -/
def trimInvalid (s : TxSetFrame) (trimmed : List Tx) :
    TxSetFrame × List Tx :=
  let s1 := sortForHash s
  (checkOrTrim checkValidTx isWhitelisted getBalance getMinimumBalance
      trimOnInvalid trimOnInsufficient
      s1.mTransactions (s1, trimmed)).2

/-- `TxSetFrame::checkValid` (with the last-closed ledger's hash and
`maxTxSetSize` passed in): check the parent hash and the size bound up
front, then run `checkOrTrim` with abort-semantics callbacks. -/
def checkValidSet (lclHash : Hash) (lclMaxTxSetSize : Nat)
    (s : TxSetFrame) : Bool :=
  if lclHash ≠ s.mPreviousLedgerHash then false
  else if s.mTransactions.length > lclMaxTxSetSize then false
  else
    (checkOrTrim checkValidTx isWhitelisted getBalance getMinimumBalance
        (fun _ _ st => (false, st)) (fun _ st => (false, st))
        s.mTransactions ()).1

/-- The transactions of an account list that pass `checkValid` with the
running `lastSeq` threading of the per-account loop. -/
def passedTxs : List Tx → SequenceNumber → List Tx
  | [], _ => []
  | tx :: rest, lastSeq =>
      if checkValidTx tx lastSeq then tx :: passedTxs rest tx.seqNum
      else passedTxs rest lastSeq

/-- The transactions of an account list that fail `checkValid` with the
running `lastSeq` threading of the per-account loop (the ones handed to
`onInvalid` in continue mode). -/
def failedTxs : List Tx → SequenceNumber → List Tx
  | [], _ => []
  | tx :: rest, lastSeq =>
      if checkValidTx tx lastSeq then failedTxs rest tx.seqNum
      else tx :: failedTxs rest lastSeq

/-- The pure evolution of the `lastTx` / `lastSeq` / `totFee` registers of
the per-account loop (they never depend on the callback state). -/
def scanFrom : List Tx → Option Tx × SequenceNumber × Int →
    Option Tx × SequenceNumber × Int
  | [], acc => acc
  | tx :: rest, acc =>
      if checkValidTx tx acc.2.1 then
        scanFrom rest
          (some tx, tx.seqNum,
           acc.2.2 + (if isWhitelisted tx then 0 else tx.fee))
      else scanFrom rest acc

/-- The pure result of the per-account loop in continue mode: final
`lastTx`, `lastSeq` and `totFee`. -/
def accountScan (item : List Tx) : Option Tx × SequenceNumber × Int :=
  scanFrom checkValidTx isWhitelisted item (none, 0, 0)

/-- The callback-state evolution of the per-account loop when `onInvalid`
always elects to continue: the `onInvalid` effects of the failing
transactions, applied in order. -/
def replayExt {σ : Type} (onInvalid : Tx → SequenceNumber → σ → Bool × σ) :
    List Tx → SequenceNumber → σ → σ
  | [], _, st => st
  | tx :: rest, lastSeq, st =>
      if checkValidTx tx lastSeq then replayExt onInvalid rest tx.seqNum st
      else replayExt onInvalid rest lastSeq (onInvalid tx lastSeq st).2

/-- Whether the per-account balance check of `checkOrTrim` fires on the
(seq-sorted) account list `item`. -/
def balanceBad (item : List Tx) : Bool :=
  match accountScan checkValidTx isWhitelisted item with
  | (some lastTx, _, totFee) =>
      decide (getBalance lastTx - totFee < getMinimumBalance lastTx)
  | (none, _, _) => false

end Validation

/-! ## Concrete instances used by witnesses and counterexamples -/

/-- A concrete SHA-256 stand-in for witness computations. -/
def exSha : Hash → List Envelope → Hash := fun p es => p + 10 * es.length

/-- Sample transactions. -/
def exTx1 : Tx := ⟨1, 5, 10, 100, [1]⟩

def exTx2 : Tx := ⟨1, 5, 12, 50, [2]⟩

def exTx3 : Tx := ⟨2, 7, 20, 70, [3]⟩

def exTx4 : Tx := ⟨1, 6, 11, 60, [4]⟩

/-- A concrete fee-ratio oracle: ratio `0` for the transaction with full
hash `100`, ratio `5` otherwise. -/
def exGfr : Tx → Rat := fun t => if t.fullHash = 100 then 0 else 5

/-- A frame whose list is not in canonical order and whose cache is
invalid. -/
def exFrameInv : TxSetFrame := ⟨9, [exTx1, exTx2], false, 0⟩

/-- A frame with a valid (coherent) cache: `[exTx2, exTx1]` is sorted by
full hash and `exSha 9 [[2], [1]] = 29`. -/
def exFrameVal : TxSetFrame := ⟨9, [exTx2, exTx1], true, 29⟩

/-- The frame holding the same transactions as `exFrameInv` in the
opposite stored order (equal canonical contents, different state). -/
def exFrameSwap : TxSetFrame := ⟨9, [exTx2, exTx1], false, 0⟩

/-! ## Lemmas on `getContentsHash` -/

section HashingLemmas

variable (sha256 : Hash → List Envelope → Hash)

theorem getContentsHash_of_valid {s : TxSetFrame} (h : s.mHashIsValid = true) :
    getContentsHash sha256 s = (s.mHash, s) := by
  simp [getContentsHash, h]

theorem getContentsHash_of_invalid {s : TxSetFrame}
    (h : s.mHashIsValid = false) :
    getContentsHash sha256 s =
      (computeContentsHash sha256 s.mPreviousLedgerHash s.mTransactions,
       ⟨s.mPreviousLedgerHash, s.mTransactions.insertionSort hashLe, true,
        computeContentsHash sha256 s.mPreviousLedgerHash s.mTransactions⟩) := by
  simp [getContentsHash, h, sortForHash, computeContentsHash]

theorem fst_getContentsHash {s : TxSetFrame} (hwf : WF sha256 s) :
    (getContentsHash sha256 s).1 =
      computeContentsHash sha256 s.mPreviousLedgerHash s.mTransactions := by
  by_cases h : s.mHashIsValid
  · rw [getContentsHash_of_valid sha256 h]
    exact hwf h
  · rw [getContentsHash_of_invalid sha256 (Bool.of_not_eq_true h)]

theorem snd_getContentsHash_valid (s : TxSetFrame) :
    (getContentsHash sha256 s).2.mHashIsValid = true ∧
      (getContentsHash sha256 s).2.mHash = (getContentsHash sha256 s).1 := by
  by_cases h : s.mHashIsValid
  · rw [getContentsHash_of_valid sha256 h]
    exact ⟨h, rfl⟩
  · rw [getContentsHash_of_invalid sha256 (Bool.of_not_eq_true h)]
    exact ⟨rfl, rfl⟩

/-- A second call to `getContentsHash` hits the cache: it returns the same
hash and leaves the frame unchanged. -/
theorem getContentsHash_idem (s : TxSetFrame) :
    getContentsHash sha256 (getContentsHash sha256 s).2 =
      ((getContentsHash sha256 s).1, (getContentsHash sha256 s).2) := by
  obtain ⟨h1, h2⟩ := snd_getContentsHash_valid sha256 s
  rw [getContentsHash_of_valid sha256 h1, h2]

theorem snd_getContentsHash_prev (s : TxSetFrame) :
    (getContentsHash sha256 s).2.mPreviousLedgerHash =
      s.mPreviousLedgerHash := by
  by_cases h : s.mHashIsValid
  · rw [getContentsHash_of_valid sha256 h]
  · rw [getContentsHash_of_invalid sha256 (Bool.of_not_eq_true h)]

theorem snd_getContentsHash_perm (s : TxSetFrame) :
    (getContentsHash sha256 s).2.mTransactions.Perm s.mTransactions := by
  by_cases h : s.mHashIsValid
  · rw [getContentsHash_of_valid sha256 h]
  · rw [getContentsHash_of_invalid sha256 (Bool.of_not_eq_true h)]
    exact List.perm_insertionSort hashLe s.mTransactions

theorem snd_getContentsHash_wf (s : TxSetFrame) (hwf : WF sha256 s) :
    WF sha256 (getContentsHash sha256 s).2 := by
  by_cases h : s.mHashIsValid
  · rw [getContentsHash_of_valid sha256 h]
    exact hwf
  · rw [getContentsHash_of_invalid sha256 (Bool.of_not_eq_true h)]
    intro _
    simp only [computeContentsHash]
    rw [List.Sorted.insertionSort_eq (List.sorted_insertionSort hashLe _)]

end HashingLemmas

/-! ## Claim C1 -/

/-- Claim C1: `getContentsHash` returns the cached hash when the cache is
valid (leaving the frame untouched); otherwise it returns the SHA-256
digest of `previousLedgerHash` followed by the envelopes of the
transactions sorted ascending by full hash, stores that list and caches
the digest; and a repeated call with no intervening mutation returns the
same hash. -/
theorem contentsHash_cache_sort_stable
    (sha256 : Hash → List Envelope → Hash) (s : TxSetFrame) :
    (s.mHashIsValid = true → getContentsHash sha256 s = (s.mHash, s)) ∧
    (s.mHashIsValid = false →
      ∃ l : List Tx, l.Perm s.mTransactions ∧ l.Sorted hashLe ∧
        getContentsHash sha256 s =
          (sha256 s.mPreviousLedgerHash (l.map Tx.envelope),
           ⟨s.mPreviousLedgerHash, l, true,
            sha256 s.mPreviousLedgerHash (l.map Tx.envelope)⟩)) ∧
    getContentsHash sha256 (getContentsHash sha256 s).2 =
      ((getContentsHash sha256 s).1, (getContentsHash sha256 s).2) := by
  refine ⟨fun h => getContentsHash_of_valid sha256 h, fun h => ?_,
    getContentsHash_idem sha256 s⟩
  refine ⟨s.mTransactions.insertionSort hashLe,
    List.perm_insertionSort hashLe _,
    List.sorted_insertionSort hashLe _, ?_⟩
  rw [getContentsHash_of_invalid sha256 h]
  rfl

/-- Witness for C1 at concrete frames: the cache-valid frame `exFrameVal`
returns its cached hash unchanged, and on `exFrameInv` a second call
agrees with the first. -/
theorem contentsHash_cache_sort_stable_witness :
    getContentsHash exSha exFrameVal = (29, exFrameVal) ∧
    getContentsHash exSha (getContentsHash exSha exFrameInv).2 =
      ((getContentsHash exSha exFrameInv).1,
       (getContentsHash exSha exFrameInv).2) :=
  ⟨(contentsHash_cache_sort_stable exSha exFrameVal).1 rfl,
   (contentsHash_cache_sort_stable exSha exFrameInv).2.2⟩

/-! ## Claim C9 -/

/-- Claim C9: `removeTx` on a transaction that is not in the set leaves
the transaction sequence and `previousLedgerHash` unchanged, and (on any
cache-coherent frame) the value subsequently returned by
`getContentsHash` is also unchanged. -/
theorem removeTx_absent_noop (s : TxSetFrame) (tx : Tx)
    (h : tx ∉ s.mTransactions) :
    (removeTx s tx).mTransactions = s.mTransactions ∧
    (removeTx s tx).mPreviousLedgerHash = s.mPreviousLedgerHash ∧
    ∀ sha256 : Hash → List Envelope → Hash, WF sha256 s →
      (getContentsHash sha256 (removeTx s tx)).1 =
        (getContentsHash sha256 s).1 := by
  have herase : s.mTransactions.erase tx = s.mTransactions :=
    List.erase_of_not_mem h
  refine ⟨herase, rfl, fun sha256 hwf => ?_⟩
  rw [fst_getContentsHash sha256 hwf]
  have hrm : (removeTx s tx).mHashIsValid = false := rfl
  rw [getContentsHash_of_invalid sha256 hrm]
  simp [removeTx, herase]

/-- Witness for C9: removing `exTx3` (absent) from `exFrameVal`. -/
theorem removeTx_absent_noop_witness :
    (removeTx exFrameVal exTx3).mTransactions = exFrameVal.mTransactions ∧
    (removeTx exFrameVal exTx3).mPreviousLedgerHash =
      exFrameVal.mPreviousLedgerHash ∧
    ∀ sha256 : Hash → List Envelope → Hash, WF sha256 exFrameVal →
      (getContentsHash sha256 (removeTx exFrameVal exTx3)).1 =
        (getContentsHash sha256 exFrameVal).1 :=
  removeTx_absent_noop exFrameVal exTx3 (by decide)

/-! ## Claim C7 -/

/-- Claim C7: `checkValid` returns `false` whenever the set's
`previousLedgerHash` differs from the last-closed ledger's hash or the
set has more transactions than `maxTxSetSize`; the result is `false` for
every per-transaction validity, whitelist and balance oracle, i.e. the
structural checks decide the outcome before any per-transaction or
balance checking. -/
theorem checkValid_structural_up_front
    (checkValidTx : Tx → SequenceNumber → Bool) (isWhitelisted : Tx → Bool)
    (getBalance getMinimumBalance : Tx → Int)
    (lclHash : Hash) (lclMaxTxSetSize : Nat) (s : TxSetFrame)
    (h : lclHash ≠ s.mPreviousLedgerHash ∨
      s.mTransactions.length > lclMaxTxSetSize) :
    checkValidSet checkValidTx isWhitelisted getBalance getMinimumBalance
      lclHash lclMaxTxSetSize s = false := by
  unfold checkValidSet
  rcases h with h | h
  · rw [if_pos h]
  · by_cases h2 : lclHash ≠ s.mPreviousLedgerHash
    · rw [if_pos h2]
    · rw [if_neg h2, if_pos h]

/-- Witness for C7: a wrong parent hash and an oversized set are both
rejected, for arbitrary concrete oracles. -/
theorem checkValid_structural_up_front_witness :
    checkValidSet (fun _ _ => true) (fun _ => false) (fun _ => 100)
      (fun _ => 0) 8 5 exFrameVal = false ∧
    checkValidSet (fun _ _ => true) (fun _ => false) (fun _ => 100)
      (fun _ => 0) 9 1 exFrameVal = false :=
  ⟨checkValid_structural_up_front _ _ _ _ 8 5 exFrameVal
      (Or.inl (by decide)),
   checkValid_structural_up_front _ _ _ _ 9 1 exFrameVal
      (Or.inr (by decide))⟩

/-! ## Lemmas on `sortForApply` -/

section ApplyLemmas

variable (sha256 : Hash → List Envelope → Hash)

theorem foldl_batchStep_length (txs : List Tx)
    (st : List (List Tx) × (AccountID → Nat)) :
    st.1.length ≤ (txs.foldl batchStep st).1.length := by
  induction txs generalizing st with
  | nil => exact Nat.le_refl _
  | cons tx rest ih =>
      refine Nat.le_trans ?_ (ih (batchStep st tx))
      unfold batchStep
      simp only [List.length_set]
      split
      · simp only [List.length_append, List.length_replicate]
        omega
      · exact Nat.le_refl _

theorem buildBatches_ne_nil (txs : List Tx) : buildBatches txs ≠ [] := by
  have h := foldl_batchStep_length txs (List.replicate 4 [], fun _ => 0)
  simp only [List.length_replicate] at h
  intro hc
  rw [buildBatches] at hc
  rw [hc] at h
  simp at h

theorem applyFold_eq (bs : List (List Tx)) (acc1 : List Tx)
    (st : TxSetFrame) :
    bs.foldl
        (fun acc batch =>
          let hs := getContentsHash sha256 acc.2
          (acc.1 ++ batch.insertionSort (xorLe hs.1), hs.2))
        (acc1, st) =
      (acc1 ++
        (bs.map
          (fun b => b.insertionSort (xorLe (getContentsHash sha256 st).1))).flatten,
       if bs.isEmpty then st else (getContentsHash sha256 st).2) := by
  induction bs generalizing acc1 st with
  | nil => simp
  | cons b rest ih =>
      simp only [List.foldl_cons]
      rw [ih]
      have hidem := getContentsHash_idem sha256 st
      have h1 : (getContentsHash sha256 (getContentsHash sha256 st).2).1 =
          (getContentsHash sha256 st).1 := by rw [hidem]
      have h2 : (getContentsHash sha256 (getContentsHash sha256 st).2).2 =
          (getContentsHash sha256 st).2 := by rw [hidem]
      simp [h1, h2, List.append_assoc]

/-- `sortForApply` in closed form: the concatenation of the batches of the
seq-sorted copy, each sorted by the XOR comparator seeded with the
content hash; the returned frame is the one `getContentsHash` produces. -/
theorem sortForApply_eq (s : TxSetFrame) :
    sortForApply sha256 s =
      (((buildBatches (s.mTransactions.insertionSort seqLe)).map
          (fun b =>
            b.insertionSort (xorLe (getContentsHash sha256 s).1))).flatten,
       (getContentsHash sha256 s).2) := by
  unfold sortForApply
  rw [applyFold_eq]
  simp [List.isEmpty_eq_true, buildBatches_ne_nil]

end ApplyLemmas

/-! ## Claim C4 -/

/-- Counterexample to C4 as stated: on a frame whose list is not in
canonical order and whose hash cache is invalid, `sortForApply` (through
`getContentsHash`) reorders the stored transaction list. -/
theorem sortForApply_mutates_counterexample :
    (sortForApply exSha exFrameInv).2.mTransactions ≠
      exFrameInv.mTransactions := by decide

/-- Claim C4 (amended): `sortForApply` produces its result as a new list;
the stored transaction list is preserved as a multiset (it is permuted to
canonical order when the contents hash has to be recomputed), and it is
unchanged whenever the hash cache is valid. -/
theorem sortForApply_preserves_transactions_amended
    (sha256 : Hash → List Envelope → Hash) (s : TxSetFrame) :
    (sortForApply sha256 s).2.mTransactions.Perm s.mTransactions ∧
    (s.mHashIsValid = true → (sortForApply sha256 s).2 = s) := by
  rw [sortForApply_eq]
  exact ⟨snd_getContentsHash_perm sha256 s,
    fun h => by rw [getContentsHash_of_valid sha256 h]⟩

/-- Witness for C4 (amended) on `exFrameVal` (valid cache, so the stored
list is exactly unchanged) and `exFrameInv` (permutation). -/
theorem sortForApply_preserves_transactions_amended_witness :
    (sortForApply exSha exFrameVal).2 = exFrameVal ∧
    (sortForApply exSha exFrameInv).2.mTransactions.Perm
      exFrameInv.mTransactions :=
  ⟨(sortForApply_preserves_transactions_amended exSha exFrameVal).2 rfl,
   (sortForApply_preserves_transactions_amended exSha exFrameInv).1⟩

/-! ## Lemmas on `removeTx` folds and list surgery -/

theorem foldl_removeTx_txs (ts : List Tx) (s : TxSetFrame) :
    (ts.foldl removeTx s).mTransactions = s.mTransactions.diff ts := by
  induction ts generalizing s with
  | nil => simp [List.diff_nil]
  | cons a ts ih =>
      simp only [List.foldl_cons, ih, List.diff_cons]
      rfl

theorem foldl_removeTx_prev (ts : List Tx) (s : TxSetFrame) :
    (ts.foldl removeTx s).mPreviousLedgerHash = s.mPreviousLedgerHash := by
  induction ts generalizing s with
  | nil => rfl
  | cons a ts ih => simp only [List.foldl_cons, ih]; rfl

theorem length_diff_of_subperm {ts l : List Tx} (h : ts.Subperm l) :
    (l.diff ts).length = l.length - ts.length := by
  have hle : (ts : Multiset Tx) ≤ (l : Multiset Tx) := Multiset.coe_le.mpr h
  have hcard := Multiset.card_sub hle
  rw [Multiset.coe_sub] at hcard
  simpa using hcard

theorem count_diff_list (x : Tx) (l ts : List Tx) :
    (l.diff ts).count x = l.count x - ts.count x := by
  have h := Multiset.count_sub x (l : Multiset Tx) (ts : Multiset Tx)
  rw [Multiset.coe_sub] at h
  simpa using h

theorem length_foldl_removeTx {ts : List Tx} {s : TxSetFrame}
    (h : ts.Subperm s.mTransactions) :
    (ts.foldl removeTx s).mTransactions.length =
      s.mTransactions.length - ts.length := by
  rw [foldl_removeTx_txs, length_diff_of_subperm h]

theorem filter_erase_of_neg {q : Tx → Bool} {a : Tx} (l : List Tx)
    (h : q a = false) : (l.erase a).filter q = l.filter q := by
  induction l with
  | nil => rfl
  | cons b l ih =>
      rw [List.erase_cons]
      by_cases hba : b = a
      · subst hba
        simp only [beq_self_eq_true, if_pos]
        simp [List.filter_cons, h]
      · simp only [beq_iff_eq]
        rw [if_neg hba, List.filter_cons, List.filter_cons]
        split
        · rw [ih]
        · exact ih

theorem filter_diff_of_pos {q : Tx → Bool} {ts : List Tx} (l : List Tx)
    (h : ∀ x ∈ ts, q x = false) :
    (l.diff ts).filter q = l.filter q := by
  induction ts generalizing l with
  | nil => rw [List.diff_nil]
  | cons a ts ih =>
      rw [List.diff_cons, ih _ (fun x hx => h x (List.mem_cons_of_mem a hx)),
        filter_erase_of_neg l (h a (List.mem_cons_self a ts))]

theorem drop_sort_filter_subperm (p : Tx → Bool) (r : Tx → Tx → Prop)
    [DecidableRel r] (k : Nat) (l : List Tx) :
    (((l.filter p).insertionSort r).drop k).Subperm l :=
  ((List.drop_sublist k _).subperm.trans
    (List.perm_insertionSort r _).subperm).trans (List.filter_sublist l).subperm

/-! ## `size_t` arithmetic -/

theorem subSize_eq {a b : Nat} (hb : b ≤ a) (ha : a < 2 ^ 64) :
    subSize a b = a - b := by
  unfold subSize
  have h1 : a + 2 ^ 64 - b = (a - b) + 2 ^ 64 := by omega
  rw [h1, Nat.add_mod_right, Nat.mod_eq_of_lt (by omega)]

theorem addSize_eq {a b : Nat} (h : a + b < 2 ^ 64) : addSize a b = a + b :=
  Nat.mod_eq_of_lt h

/-! ## Claim C2 -/

/-- Claim C2: with `maxTxSetSize` a `size_t` value and the whitelist
reserve at most `max` (the reserve is a share of the capacity), after
`surgePricingFilter` the set holds at most `max` transactions; and when
the set already fits, the filter is a no-op. -/
theorem surgePricingFilter_size_bound (isWhitelisted : Tx → Bool)
    (getFeeRatio : Tx → Rat) (unwhitelistedReserve : Nat → Nat)
    (whitelistID : Option AccountID) (max : Nat) (s : TxSetFrame)
    (hmax : max < 2 ^ 64) (hres : ReserveWF unwhitelistedReserve max) :
    (s.mTransactions.length ≤ max →
      surgePricingFilter isWhitelisted getFeeRatio unwhitelistedReserve
        whitelistID max s = s) ∧
    (surgePricingFilter isWhitelisted getFeeRatio unwhitelistedReserve
        whitelistID max s).mTransactions.length ≤ max := by
  have hnoop : s.mTransactions.length ≤ max →
      surgePricingFilter isWhitelisted getFeeRatio unwhitelistedReserve
        whitelistID max s = s := by
    intro h
    unfold surgePricingFilter
    rw [if_neg (by omega)]
  refine ⟨hnoop, ?_⟩
  by_cases hle : s.mTransactions.length ≤ max
  · rw [hnoop hle]; exact hle
  · have hgt : s.mTransactions.length > max := by omega
    unfold surgePricingFilter
    rw [if_pos hgt]
    set n := s.mTransactions.length with hn
    set W := s.mTransactions.filter isWhitelisted with hWdef
    set U := s.mTransactions.filter (fun tx => !isWhitelisted tx) with hUdef
    set afm := buildFeeMap getFeeRatio s.mTransactions with hafm
    set sortedW := W.insertionSort (surgeLe afm true whitelistID) with hsortW
    have hpart : n = W.length + U.length := by
      rw [hn, hWdef, hUdef]
      exact List.length_eq_length_filter_add isWhitelisted
    have hwlen : sortedW.length = W.length := List.length_insertionSort _ _
    replace hres : unwhitelistedReserve max ≤ max := hres
    set r0 := unwhitelistedReserve max with hr0
    dsimp only
    set r := if U.length < r0 then U.length else r0 with hrdef
    have hrmax : r ≤ max := by
      rw [hrdef]; split <;> omega
    have hsub1 : subSize max r = max - r := subSize_eq hrmax hmax
    rw [hsub1]
    -- the whitelisted-suffix removal
    by_cases hcw : sortedW.length > max - r
    · rw [if_pos hcw, if_pos hcw]
      set wSuffix := sortedW.drop (max - r) with hws
      have hwsub : wSuffix.Subperm s.mTransactions := by
        rw [hws, hsortW, hWdef]
        exact drop_sort_filter_subperm isWhitelisted _ _ _
      have hwslen : wSuffix.length = sortedW.length - (max - r) := by
        rw [hws, List.length_drop]
      set s1 := wSuffix.foldl removeTx s with hs1
      have hs1len : s1.mTransactions.length = n - wSuffix.length := by
        rw [hs1, length_foldl_removeTx hwsub, hn]
      have htotal : addSize r 0 = r := addSize_eq (by omega)
      rw [htotal]
      by_cases hcu : U.length ≤ r
      · rw [if_pos hcu]
        omega
      · rw [if_neg hcu]
        set tempList := U.insertionSort (surgeLe afm false whitelistID)
          with htemp
        have htlen : tempList.length = U.length :=
          List.length_insertionSort _ _
        -- the unwhitelisted suffix still lives inside `s1`
        have hwall : ∀ x ∈ wSuffix, isWhitelisted x = true := by
          intro x hx
          have hx2 : x ∈ sortedW := List.mem_of_mem_drop hx
          rw [hsortW] at hx2
          have hx3 : x ∈ W := (List.mem_insertionSort _).1 hx2
          rw [hWdef] at hx3
          exact List.of_mem_filter hx3
        have hUs1 : U = s1.mTransactions.filter (fun tx => !isWhitelisted tx) := by
          rw [hs1, foldl_removeTx_txs, hUdef,
            filter_diff_of_pos s.mTransactions
              (fun x hx => by rw [hwall x hx]; rfl)]
        have husub : (tempList.drop r).Subperm s1.mTransactions := by
          have h1 : (tempList.drop r).Sublist tempList := List.drop_sublist _ _
          have h2 : tempList.Perm U := List.perm_insertionSort _ _
          have h3 : (s1.mTransactions.filter
              (fun tx => !isWhitelisted tx)).Sublist s1.mTransactions :=
            List.filter_sublist _
          exact (h1.subperm.trans h2.subperm).trans (hUs1 ▸ h3.subperm)
        have hfinal := length_foldl_removeTx husub
        rw [hfinal, List.length_drop, htlen, hs1len]
        omega
    · rw [if_neg hcw, if_neg hcw]
      have hsub2 : subSize (max - r) sortedW.length =
          (max - r) - sortedW.length := subSize_eq (by omega) (by omega)
      rw [hsub2]
      have htotal : addSize r ((max - r) - sortedW.length) =
          r + ((max - r) - sortedW.length) := addSize_eq (by omega)
      rw [htotal]
      by_cases hcu : U.length ≤ r + ((max - r) - sortedW.length)
      · rw [if_pos hcu]
        omega
      · rw [if_neg hcu]
        set tempList := U.insertionSort (surgeLe afm false whitelistID)
          with htemp
        have htlen : tempList.length = U.length :=
          List.length_insertionSort _ _
        have husub : (tempList.drop
            (r + ((max - r) - sortedW.length))).Subperm s.mTransactions := by
          rw [htemp, hUdef]
          exact drop_sort_filter_subperm _ _ _ _
        have hfinal := length_foldl_removeTx husub
        rw [hfinal, List.length_drop, htlen]
        omega

/-- Witness for C2: three transactions, capacity two, no whitelist — the
filter trims the set to two transactions; and a two-element set at
capacity two is untouched. -/
theorem surgePricingFilter_size_bound_witness :
    (2 : Nat) < 2 ^ 64 ∧ ReserveWF (fun _ => 0) 2 ∧
    (surgePricingFilter (fun _ => false) (fun t => (t.fee : Rat))
        (fun _ => 0) none 2 ⟨9, [exTx1, exTx2, exTx3], false, 0⟩
      ).mTransactions.length ≤ 2 ∧
    surgePricingFilter (fun _ => false) (fun t => (t.fee : Rat))
        (fun _ => 0) none 2 exFrameVal = exFrameVal :=
  ⟨by decide, show (0 : Nat) ≤ 2 by decide,
   (surgePricingFilter_size_bound (fun _ => false) (fun t => (t.fee : Rat))
      (fun _ => 0) none 2 ⟨9, [exTx1, exTx2, exTx3], false, 0⟩
      (by decide) (show (0 : Nat) ≤ 2 by decide)).2,
   (surgePricingFilter_size_bound (fun _ => false) (fun t => (t.fee : Rat))
      (fun _ => 0) none 2 exFrameVal (by decide)
      (show (0 : Nat) ≤ 2 by decide)).1 (by decide)⟩

/-! ## Lemmas on the fee-ratio map -/

theorem feeMapFold_eq (getFeeRatio : Tx → Rat) (txs : List Tx)
    (m : AccountID → Rat) (A : AccountID) :
    (txs.foldl
      (fun m tx =>
        let r := getFeeRatio tx
        let now := m tx.sourceID
        if now = 0 then Function.update m tx.sourceID r
        else if r < now then Function.update m tx.sourceID r
        else m)
      m) A =
    ((txs.filter (fun t => t.sourceID == A)).map getFeeRatio).foldl
      feeStep (m A) := by
  induction txs generalizing m with
  | nil => rfl
  | cons tx rest ih =>
      simp only [List.foldl_cons, List.filter_cons]
      by_cases hsrc : tx.sourceID = A
      · rw [ih]
        have hstepA :
            (let r := getFeeRatio tx
             let now := m tx.sourceID
             if now = 0 then Function.update m tx.sourceID r
             else if r < now then Function.update m tx.sourceID r
             else m) A = feeStep (m A) (getFeeRatio tx) := by
          dsimp only
          rw [← hsrc, feeStep]
          by_cases h0 : m tx.sourceID = 0
          · rw [if_pos h0, if_pos h0, Function.update_same]
          · rw [if_neg h0, if_neg h0]
            by_cases hlt : getFeeRatio tx < m tx.sourceID
            · rw [if_pos hlt, if_pos hlt, Function.update_same]
            · rw [if_neg hlt, if_neg hlt]
        rw [hstepA]
        have hkeep : (tx.sourceID == A) = true := by simpa using hsrc
        rw [if_pos hkeep, List.map_cons, List.foldl_cons]
      · rw [ih]
        have hstepA :
            (let r := getFeeRatio tx
             let now := m tx.sourceID
             if now = 0 then Function.update m tx.sourceID r
             else if r < now then Function.update m tx.sourceID r
             else m) A = m A := by
          dsimp only
          by_cases h0 : m tx.sourceID = 0
          · rw [if_pos h0, Function.update_noteq (fun h => hsrc h.symm)]
          · rw [if_neg h0]
            by_cases hlt : getFeeRatio tx < m tx.sourceID
            · rw [if_pos hlt, Function.update_noteq (fun h => hsrc h.symm)]
            · rw [if_neg hlt]
        rw [hstepA]
        have hdrop : ¬(tx.sourceID == A) = true := by simpa using hsrc
        rw [if_neg hdrop]

theorem buildFeeMap_eq (getFeeRatio : Tx → Rat) (txs : List Tx)
    (A : AccountID) :
    buildFeeMap getFeeRatio txs A =
      ((txs.filter (fun t => t.sourceID == A)).map getFeeRatio).foldl
        feeStep 0 := by
  unfold buildFeeMap
  exact feeMapFold_eq getFeeRatio txs (fun _ => 0) A

theorem foldl_feeStep_min (l : List Rat) (x : Rat) (hx : x ≠ 0)
    (hl : ∀ r ∈ l, r ≠ 0) :
    l.foldl feeStep x ∈ x :: l ∧ ∀ r ∈ x :: l, l.foldl feeStep x ≤ r := by
  induction l generalizing x with
  | nil =>
      exact ⟨List.mem_singleton.2 rfl,
        fun r hr => by rw [List.mem_singleton.1 hr]; exact le_refl x⟩
  | cons a l ih =>
      have ha : a ≠ 0 := hl a (List.mem_cons_self a l)
      have hstep : feeStep x a = if a < x then a else x := by
        rw [feeStep, if_neg hx]
      have hy : feeStep x a ≠ 0 := by
        rw [hstep]; split <;> assumption
      have hyx : feeStep x a ≤ x := by
        rw [hstep]; split
        · exact le_of_lt (by assumption)
        · exact le_refl x
      have hya : feeStep x a ≤ a := by
        rw [hstep]; split
        · exact le_refl a
        · exact le_of_not_lt (by assumption)
      obtain ⟨hmem, hle⟩ := ih (feeStep x a) hy
        (fun r hr => hl r (List.mem_cons_of_mem a hr))
      rw [List.foldl_cons]
      constructor
      · rcases List.mem_cons.1 hmem with h | h
        · rw [h, hstep]
          split
          · exact List.mem_cons_of_mem x (List.mem_cons_self a l)
          · exact List.mem_cons_self x (a :: l)
        · exact List.mem_cons_of_mem x (List.mem_cons_of_mem a h)
      · intro r hr
        rcases List.mem_cons.1 hr with h | h
        · rw [h]
          exact le_trans (hle _ (List.mem_cons_self _ l)) hyx
        · rcases List.mem_cons.1 h with h2 | h2
          · rw [h2]
            exact le_trans (hle _ (List.mem_cons_self _ l)) hya
          · exact hle r (List.mem_cons_of_mem _ h2)

/-! ## Claim C5 -/

/-- Counterexample to C5 as stated: account 1 submits a transaction of fee
ratio `0` (`exTx1`) and then one of ratio `5` (`exTx4`); because the map
treats `0` as "unset", the second assignment overwrites the `0`, so the
computed entry is `5`, strictly greater than the account's minimum ratio
`0`. -/
theorem accountFeeRatio_not_min_counterexample :
    buildFeeMap exGfr [exTx1, exTx4] 1 = 5 ∧
    exTx1 ∈ [exTx1, exTx4] ∧ exTx1.sourceID = 1 ∧ exGfr exTx1 = 0 ∧
    ¬buildFeeMap exGfr [exTx1, exTx4] 1 ≤ exGfr exTx1 := by
  refine ⟨?_, by decide, by decide, by decide, ?_⟩ <;> decide

/-- Claim C5 (amended): for every account `A` owning at least one
transaction, provided none of `A`'s transactions has fee ratio exactly
`0` (the map's "unset" sentinel), the computed `accountFeeMap[A]` is the
minimum of `A`'s transactions' fee ratios: it is one of them and is a
lower bound. -/
theorem accountFeeRatio_min_of_nonzero (getFeeRatio : Tx → Rat)
    (txs : List Tx) (A : AccountID)
    (hmem : ∃ tx ∈ txs, tx.sourceID = A)
    (hnz : ∀ tx ∈ txs, tx.sourceID = A → getFeeRatio tx ≠ 0) :
    buildFeeMap getFeeRatio txs A ∈
      (txs.filter (fun t => t.sourceID == A)).map getFeeRatio ∧
    ∀ r ∈ (txs.filter (fun t => t.sourceID == A)).map getFeeRatio,
      buildFeeMap getFeeRatio txs A ≤ r := by
  rw [buildFeeMap_eq]
  have hall : ∀ r ∈ (txs.filter (fun t => t.sourceID == A)).map getFeeRatio,
      r ≠ 0 := by
    intro r hr
    obtain ⟨tx, htx, rfl⟩ := List.mem_map.1 hr
    exact hnz tx (List.mem_of_mem_filter htx)
      (by simpa using List.of_mem_filter htx)
  obtain ⟨tx0, htx0, hsrc0⟩ := hmem
  have hne : (txs.filter (fun t => t.sourceID == A)).map getFeeRatio ≠ [] := by
    have : tx0 ∈ txs.filter (fun t => t.sourceID == A) :=
      List.mem_filter.2 ⟨htx0, by simpa using hsrc0⟩
    intro hc
    exact absurd (List.mem_map_of_mem getFeeRatio this) (by rw [hc]; simp)
  cases hratios : (txs.filter (fun t => t.sourceID == A)).map getFeeRatio with
  | nil => exact absurd hratios hne
  | cons a l =>
      rw [List.foldl_cons]
      have ha : a ≠ 0 := hall a (by rw [hratios]; exact List.mem_cons_self a l)
      have hstep0 : feeStep 0 a = a := by rw [feeStep, if_pos rfl]
      rw [hstep0]
      have := foldl_feeStep_min l a ha
        (fun r hr => hall r (by rw [hratios]; exact List.mem_cons_of_mem a hr))
      exact this

/-- Witness for C5 (amended): account 1 with ratios `5` and `5`. -/
theorem accountFeeRatio_min_of_nonzero_witness :
    buildFeeMap exGfr [exTx2, exTx4] 1 ∈
      (([exTx2, exTx4].filter (fun t => t.sourceID == 1)).map exGfr) ∧
    ∀ r ∈ ([exTx2, exTx4].filter (fun t => t.sourceID == 1)).map exGfr,
      buildFeeMap exGfr [exTx2, exTx4] 1 ≤ r :=
  accountFeeRatio_min_of_nonzero exGfr [exTx2, exTx4] 1
    ⟨exTx2, by decide, by decide⟩ (by decide)

/-! ## The batch invariant of `sortForApply` -/

theorem list_set_self {α : Type _} (l : List α) (i : Nat) (h : i < l.length) :
    l.set i l[i] = l := by
  apply List.ext_getElem
  · simp
  · intro n h1 h2
    rw [List.getElem_set]
    split
    · subst ‹i = n›; rfl
    · rfl

theorem replicate_set_zero {α : Type _} (k : Nat) (hk : 0 < k) (x z : α) :
    (List.replicate k x).set 0 z = z :: List.replicate (k - 1) x := by
  cases k with
  | zero => omega
  | succ m =>
      rw [List.replicate_succ, List.set_cons_zero]
      simp

theorem batchInv_init (A : AccountID) :
    BatchInv A [] (List.replicate 4 [], fun _ => 0) := by
  refine ⟨rfl, by simp, ?_⟩
  simp

theorem batchStep_inv {P : List Tx} {st : List (List Tx) × (AccountID → Nat)}
    {tx : Tx} (h : ∀ A, BatchInv A P st) :
    ∀ A, BatchInv A (P ++ [tx]) (batchStep st tx) := by
  obtain ⟨B, c⟩ := st
  intro A
  unfold batchStep
  dsimp only
  set v := c tx.sourceID with hv
  set B' := if B.length ≤ v then B ++ List.replicate (v + 4 - B.length) []
    else B with hB'
  have hvS : v = (P.filter (srcF tx.sourceID)).length := (h tx.sourceID).1
  have hfacts : B.length ≤ B'.length ∧ v < B'.length := by
    rw [hB']
    by_cases hgrow : B.length ≤ v
    · rw [if_pos hgrow]
      constructor
      · simp only [List.length_append, List.length_replicate]
        omega
      · simp only [List.length_append, List.length_replicate]
        omega
    · rw [if_neg hgrow]
      exact ⟨Nat.le_refl _, by omega⟩
  have hmapB' : ∀ A2 : AccountID, B'.map (List.filter (srcF A2)) =
      (P.filter (srcF A2)).map (fun t => [t]) ++
      List.replicate (B'.length - (P.filter (srcF A2)).length) [] := by
    intro A2
    obtain ⟨h1, h2, h3⟩ := h A2
    dsimp only at h1 h2 h3
    rw [hB']
    by_cases hgrow : B.length ≤ v
    · rw [if_pos hgrow, List.map_append, h3, List.map_replicate]
      simp only [List.filter_nil, List.length_append, List.length_replicate,
        List.append_assoc]
      rw [← List.replicate_add]
      congr 2
      omega
    · rw [if_neg hgrow]
      exact h3
  have hfiltS : (P ++ [tx]).filter (srcF tx.sourceID) =
      P.filter (srcF tx.sourceID) ++ [tx] := by
    rw [List.filter_append]
    congr 1
    simp [srcF]
  have hfiltNe : A ≠ tx.sourceID →
      (P ++ [tx]).filter (srcF A) = P.filter (srcF A) := by
    intro hAS
    rw [List.filter_append]
    have hne : srcF A tx = false := by
      simp only [srcF, beq_eq_false_iff_ne, ne_eq]
      exact fun hc => hAS hc.symm
    simp [List.filter_cons, hne]
  rw [List.getD_eq_getElem B' [] hfacts.2]
  have hmaplen : (B'.map (List.filter (srcF A))).length = B'.length :=
    List.length_map ..
  have hvlt2 : v < B'.length := hfacts.2
  have hvm : v < (B'.map (List.filter (srcF A))).length := by
    rw [hmaplen]
    exact hfacts.2
  have hfA_v : List.filter (srcF A) B'[v] =
      (B'.map (List.filter (srcF A)))[v] :=
    (List.getElem_map ..).symm
  refine ⟨?_, ?_, ?_⟩
  · -- the counter component
    dsimp only
    by_cases hAS : A = tx.sourceID
    · subst hAS
      rw [Function.update_same, hfiltS, List.length_append, ← hvS]
      rfl
    · have h1A := (h A).1
      dsimp only at h1A
      rw [Function.update_noteq hAS, h1A, hfiltNe hAS]
  · -- the length bound
    dsimp only
    rw [List.length_set]
    by_cases hAS : A = tx.sourceID
    · subst hAS
      rw [hfiltS, List.length_append]
      have := hfacts.2
      simp only [List.length_singleton]
      omega
    · rw [hfiltNe hAS]
      have h4 := (h A).2.1
      dsimp only at h4
      have := hfacts.1
      omega
  · -- the per-batch filter picture
    dsimp only
    rw [List.map_set, List.filter_append]
    by_cases hAS : A = tx.sourceID
    · subst hAS
      have hsingles : ((P.filter (srcF tx.sourceID)).map
          (fun t => ([t] : List Tx))).length = v := by
        rw [List.length_map, hvS]
      have hentry : List.filter (srcF tx.sourceID) B'[v] = [] := by
        rw [hfA_v, List.getElem_of_eq (hmapB' tx.sourceID),
          List.getElem_append_right (le_of_eq hsingles),
          List.getElem_replicate]
      have hfx : [tx].filter (srcF tx.sourceID) = [tx] := by simp [srcF]
      rw [hentry, hfx, List.nil_append, hmapB' tx.sourceID, List.set_append,
        if_neg (by omega), hsingles, Nat.sub_self,
        replicate_set_zero _ (by omega) _ _, hfiltS, List.map_append,
        List.length_set]
      simp only [List.map_cons, List.map_nil]
      rw [List.append_assoc, List.singleton_append]
      congr 3
      simp only [List.length_append, List.length_singleton]
      omega
    · have hABne : srcF A tx = false := by
        simp only [srcF, beq_eq_false_iff_ne, ne_eq]
        exact fun hc => hAS hc.symm
      have hfx : [tx].filter (srcF A) = [] := by
        simp [List.filter_cons, hABne]
      rw [hfx, List.append_nil, hfA_v,
        list_set_self _ _ (by rw [hmaplen]; exact hfacts.2), hmapB' A,
        List.length_set, hfiltNe hAS]

theorem buildBatches_inv (txs : List Tx) :
    ∀ A, BatchInv A txs
      (txs.foldl batchStep (List.replicate 4 [], fun _ => 0)) := by
  induction txs using List.reverseRecOn with
  | nil => exact batchInv_init
  | append_singleton txs tx ih =>
      rw [List.foldl_append]
      exact batchStep_inv ih

theorem buildBatches_filter (txs : List Tx) (A : AccountID) :
    (buildBatches txs).map (List.filter (srcF A)) =
      (txs.filter (srcF A)).map (fun t => [t]) ++
      List.replicate
        ((buildBatches txs).length - (txs.filter (srcF A)).length) [] :=
  (buildBatches_inv txs A).2.2

theorem filter_sortXor_batch (txs : List Tx) (A : AccountID) (h : Hash)
    {b : List Tx} (hb : b ∈ buildBatches txs) :
    (b.insertionSort (xorLe h)).filter (srcF A) = b.filter (srcF A) := by
  have hperm : ((b.insertionSort (xorLe h)).filter (srcF A)).Perm
      (b.filter (srcF A)) := (List.perm_insertionSort (xorLe h) b).filter _
  have hmem : b.filter (srcF A) ∈
      (buildBatches txs).map (List.filter (srcF A)) :=
    List.mem_map_of_mem _ hb
  rw [buildBatches_filter] at hmem
  rcases List.mem_append.1 hmem with h1 | h1
  · obtain ⟨t, _, ht⟩ := List.mem_map.1 h1
    rw [← ht] at hperm ⊢
    exact List.perm_singleton.1 hperm
  · have hnil : b.filter (srcF A) = [] := List.eq_of_mem_replicate h1
    rw [hnil] at hperm ⊢
    exact hperm.eq_nil

/-- The per-account subsequence of the apply list is exactly the
per-account subsequence of the seq-sorted copy of the transactions. -/
theorem sortForApply_filter_eq (sha256 : Hash → List Envelope → Hash)
    (s : TxSetFrame) (A : AccountID) :
    (sortForApply sha256 s).1.filter (srcF A) =
      (s.mTransactions.insertionSort seqLe).filter (srcF A) := by
  rw [sortForApply_eq]
  dsimp only
  rw [List.filter_flatten, List.map_map]
  have hcong : (buildBatches (s.mTransactions.insertionSort seqLe)).map
      (List.filter (srcF A) ∘
        fun b => b.insertionSort (xorLe (getContentsHash sha256 s).1)) =
      (buildBatches (s.mTransactions.insertionSort seqLe)).map
        (List.filter (srcF A)) :=
    List.map_congr_left
      (fun b hb => filter_sortXor_batch _ A _ hb)
  rw [hcong, buildBatches_filter, List.flatten_append]
  have h1 : ∀ l : List Tx, (l.map (fun t => ([t] : List Tx))).flatten = l := by
    intro l
    induction l <;> simp_all
  have h2 : ∀ k : Nat, (List.replicate k ([] : List Tx)).flatten = [] := by
    intro k
    simp
  rw [h1, h2, List.append_nil]

/-! ## Claim C3 -/

/-- Counterexample to C3 as stated: `exFrameInv` holds two transactions of
account 1 with the same sequence number 5, so the per-account
subsequence of the apply list has sequence numbers `[5, 5]`, which is not
strictly ascending. -/
theorem sortForApply_perAccount_seq_counterexample :
    ¬(((sortForApply exSha exFrameInv).1.filter (srcF 1)).map
        Tx.seqNum).Sorted (· < ·) := by decide

/-- Claim C3 (amended): in the list returned by `sortForApply`, for every
account `A` whose transactions carry pairwise-distinct sequence numbers,
the subsequence of transactions with `sourceID = A` is in strictly
ascending `seqNum` order. -/
theorem sortForApply_perAccount_seq_strict_of_nodup
    (sha256 : Hash → List Envelope → Hash) (s : TxSetFrame) (A : AccountID)
    (hnd : ((s.mTransactions.filter (srcF A)).map Tx.seqNum).Nodup) :
    ((((sortForApply sha256 s).1.filter (srcF A)).map Tx.seqNum)).Sorted
      (· < ·) := by
  rw [sortForApply_filter_eq]
  have hsorted : (s.mTransactions.insertionSort seqLe).Sorted seqLe :=
    List.sorted_insertionSort seqLe s.mTransactions
  have hsub : ((s.mTransactions.insertionSort seqLe).filter
      (srcF A)).Sublist (s.mTransactions.insertionSort seqLe) :=
    List.filter_sublist _
  have hpw : ((s.mTransactions.insertionSort seqLe).filter
      (srcF A)).Pairwise seqLe := hsorted.sublist hsub
  have hle : ((((s.mTransactions.insertionSort seqLe).filter
      (srcF A)).map Tx.seqNum)).Sorted (· ≤ ·) :=
    List.pairwise_map.2 hpw
  have hperm : (((s.mTransactions.insertionSort seqLe).filter
      (srcF A)).map Tx.seqNum).Perm
      ((s.mTransactions.filter (srcF A)).map Tx.seqNum) :=
    ((List.perm_insertionSort seqLe s.mTransactions).filter _).map _
  exact hle.lt_of_le (hperm.nodup_iff.2 hnd)

/-- Witness for C3 (amended): account 1 with distinct sequence numbers 5
and 6. -/
theorem sortForApply_perAccount_seq_strict_of_nodup_witness :
    ((((sortForApply exSha ⟨9, [exTx4, exTx1], false, 0⟩).1.filter
        (srcF 1)).map Tx.seqNum)).Sorted (· < ·) :=
  sortForApply_perAccount_seq_strict_of_nodup exSha
    ⟨9, [exTx4, exTx1], false, 0⟩ 1 (by decide)

/-! ## Lemmas on the validation engine -/

section ValidationLemmas

variable (checkValidTx : Tx → SequenceNumber → Bool)
variable (isWhitelisted : Tx → Bool)
variable (getBalance getMinimumBalance : Tx → Int)

theorem passedTxs_nil_of_fail {item : List Tx}
    (h : ∀ tx ∈ item, checkValidTx tx 0 = false) :
    passedTxs checkValidTx item 0 = [] := by
  induction item with
  | nil => rfl
  | cons tx rest ih =>
      rw [passedTxs, if_neg (by rw [h tx (List.mem_cons_self tx rest)]; simp)]
      exact ih (fun t ht => h t (List.mem_cons_of_mem tx ht))

theorem getLast?_cons_or {α : Type _} (a : α) (l : List α) :
    (a :: l).getLast? = l.getLast?.or (some a) := by
  cases l with
  | nil => rfl
  | cons b l =>
      rw [List.getLast?_cons_cons]
      cases hgl : (b :: l).getLast? with
      | none => exact absurd (List.getLast?_eq_none_iff.1 hgl) (by simp)
      | some x => rfl

theorem scanFrom_lastTx (item : List Tx)
    (acc : Option Tx × SequenceNumber × Int) :
    (scanFrom checkValidTx isWhitelisted item acc).1 =
      ((passedTxs checkValidTx item acc.2.1).getLast?).or acc.1 := by
  induction item generalizing acc with
  | nil => rw [scanFrom, passedTxs]; rfl
  | cons tx rest ih =>
      rw [scanFrom, passedTxs]
      by_cases hc : checkValidTx tx acc.2.1 = true
      · rw [if_pos hc, if_pos hc, ih, getLast?_cons_or, Option.or_assoc]
        rfl
      · rw [if_neg hc, if_neg hc, ih]

theorem checkAccountTxs_cont {σ : Type}
    (onInvalid : Tx → SequenceNumber → σ → Bool × σ)
    (hcont : ∀ tx ls st, (onInvalid tx ls st).1 = true) (item : List Tx)
    (acc : LoopSt σ) :
    checkAccountTxs checkValidTx isWhitelisted onInvalid item acc =
      .ok ⟨(scanFrom checkValidTx isWhitelisted item
              (acc.lastTx, acc.lastSeq, acc.totFee)).1,
           (scanFrom checkValidTx isWhitelisted item
              (acc.lastTx, acc.lastSeq, acc.totFee)).2.1,
           (scanFrom checkValidTx isWhitelisted item
              (acc.lastTx, acc.lastSeq, acc.totFee)).2.2,
           replayExt checkValidTx onInvalid item acc.lastSeq acc.ext⟩ := by
  induction item generalizing acc with
  | nil => rfl
  | cons tx rest ih =>
      rw [checkAccountTxs, scanFrom, replayExt]
      by_cases hc : checkValidTx tx acc.lastSeq = true
      · rw [if_pos hc]
        have hc2 : checkValidTx tx (acc.lastTx, acc.lastSeq, acc.totFee).2.1 =
            true := hc
        rw [if_pos hc2, if_pos hc]
        exact ih _
      · rw [if_neg hc]
        have hc2 : ¬checkValidTx tx (acc.lastTx, acc.lastSeq,
            acc.totFee).2.1 = true := hc
        rw [if_neg hc2, if_neg hc]
        dsimp only
        rw [hcont tx acc.lastSeq acc.ext, if_pos rfl]
        exact ih _

theorem replayExt_trim (item : List Tx) (lastSeq : SequenceNumber)
    (f : TxSetFrame) (tr : List Tx) :
    replayExt checkValidTx trimOnInvalid item lastSeq (f, tr) =
      ((failedTxs checkValidTx item lastSeq).foldl removeTx f,
       tr ++ failedTxs checkValidTx item lastSeq) := by
  induction item generalizing lastSeq f tr with
  | nil => simp [replayExt, failedTxs]
  | cons tx rest ih =>
      rw [replayExt, failedTxs]
      by_cases hc : checkValidTx tx lastSeq = true
      · rw [if_pos hc, if_pos hc, ih]
      · rw [if_neg hc, if_neg hc]
        show replayExt checkValidTx trimOnInvalid rest lastSeq
          (removeTx f tx, tr ++ [tx]) = _
        rw [ih, List.foldl_cons, ← List.append_cons]

theorem processAccount_trim (item : List Tx) (f : TxSetFrame)
    (tr : List Tx) :
    processAccount checkValidTx isWhitelisted getBalance getMinimumBalance
        trimOnInvalid trimOnInsufficient item (f, tr) =
      .ok (if balanceBad checkValidTx isWhitelisted getBalance
              getMinimumBalance item = true then
             (item.foldl removeTx
                ((failedTxs checkValidTx item 0).foldl removeTx f),
              tr ++ failedTxs checkValidTx item 0 ++ item)
           else ((failedTxs checkValidTx item 0).foldl removeTx f,
              tr ++ failedTxs checkValidTx item 0)) := by
  rw [processAccount,
    checkAccountTxs_cont checkValidTx isWhitelisted trimOnInvalid
      (fun _ _ _ => rfl) item ⟨none, 0, 0, (f, tr)⟩]
  rw [replayExt_trim]
  unfold balanceBad accountScan
  cases hscan : (scanFrom checkValidTx isWhitelisted item (none, 0, 0)) with
  | mk lastTx rest =>
      cases lastTx with
      | none => rfl
      | some t =>
          dsimp only
          by_cases hb : getBalance t - rest.2 < getMinimumBalance t
          · rw [if_pos hb, decide_eq_true hb]
            simp [trimOnInsufficient]
          · rw [if_neg hb, decide_eq_false hb]
            simp

theorem balanceBad_ne_nil
    (h : balanceBad checkValidTx isWhitelisted getBalance getMinimumBalance
      [] = true) : False := by
  rw [balanceBad] at h
  simp [accountScan, scanFrom] at h

theorem hashesNonDecreasing_sorted :
    ∀ (l : List Tx) (h0 : Hash), l.Sorted hashLe →
      (∀ t ∈ l, h0 ≤ t.fullHash) → hashesNonDecreasing h0 l = true := by
  intro l
  induction l with
  | nil => intro h0 _ _; rfl
  | cons tx rest ih =>
      intro h0 hs hle
      have hnot : ¬(tx.fullHash < h0) :=
        Nat.not_lt.mpr (hle tx (List.mem_cons_self tx rest))
      rw [hashesNonDecreasing, if_neg hnot]
      exact ih tx.fullHash hs.of_cons
        (fun t ht => List.rel_of_sorted_cons hs t ht)

theorem goAccounts_trim_count (txs : List Tx) (accounts : List AccountID)
    (f : TxSetFrame) (tr : List Tx) :
    ∃ f1 tr1,
      goAccounts checkValidTx isWhitelisted getBalance getMinimumBalance
        trimOnInvalid trimOnInsufficient txs accounts (f, tr) =
        (true, (f1, tr1)) ∧
      (∀ x : Tx, f1.mTransactions.count x ≤ f.mTransactions.count x) ∧
      ∃ ext, tr1 = tr ++ ext := by
  induction accounts generalizing f tr with
  | nil =>
      exact ⟨f, tr, rfl, fun x => Nat.le_refl _, [], by simp⟩
  | cons B rest ih =>
      rw [goAccounts, processAccount_trim]
      set itemB := ((txs.filter (fun tx => tx.sourceID == B)).insertionSort
        seqLe) with hitem
      dsimp only
      split
      · -- insufficient-balance branch for B
        obtain ⟨f1, tr1, hgo, hcount, ext, hext⟩ :=
          ih (itemB.foldl removeTx
            ((failedTxs checkValidTx itemB 0).foldl removeTx f))
            (tr ++ failedTxs checkValidTx itemB 0 ++ itemB)
        refine ⟨f1, tr1, hgo, fun x => ?_, _, by rw [hext, List.append_assoc,
          List.append_assoc]⟩
        refine Nat.le_trans (hcount x) ?_
        rw [foldl_removeTx_txs, foldl_removeTx_txs, count_diff_list,
          count_diff_list]
        omega
      · obtain ⟨f1, tr1, hgo, hcount, ext, hext⟩ :=
          ih ((failedTxs checkValidTx itemB 0).foldl removeTx f)
            (tr ++ failedTxs checkValidTx itemB 0)
        refine ⟨f1, tr1, hgo, fun x => ?_, _, by rw [hext,
          List.append_assoc]⟩
        refine Nat.le_trans (hcount x) ?_
        rw [foldl_removeTx_txs, count_diff_list]
        omega

theorem goAccounts_trim_insufficient (txs : List Tx) (A : AccountID)
    (accounts : List AccountID) (f : TxSetFrame) (tr : List Tx)
    (hcnt : ∀ x : Tx, srcF A x = true →
      f.mTransactions.count x ≤
        ((txs.filter (srcF A)).insertionSort seqLe).count x)
    (hmem : A ∈ accounts)
    (hbad : balanceBad checkValidTx isWhitelisted getBalance
      getMinimumBalance ((txs.filter (srcF A)).insertionSort seqLe) = true) :
    ∃ f1 tr1,
      goAccounts checkValidTx isWhitelisted getBalance getMinimumBalance
        trimOnInvalid trimOnInsufficient txs accounts (f, tr) =
        (true, (f1, tr1)) ∧
      (∀ x ∈ f1.mTransactions, srcF A x = false) ∧
      (∀ x ∈ (txs.filter (srcF A)).insertionSort seqLe, x ∈ tr1) := by
  induction accounts generalizing f tr with
  | nil => cases hmem
  | cons B rest ih =>
      rw [goAccounts, processAccount_trim]
      by_cases hBA : B = A
      · subst hBA
        have hsrceq : (fun tx => tx.sourceID == B) = srcF B := rfl
        rw [hsrceq, if_pos hbad]
        set itemB := ((txs.filter (srcF B)).insertionSort seqLe) with hitem
        set f2 := itemB.foldl removeTx
          ((failedTxs checkValidTx itemB 0).foldl removeTx f) with hf2
        obtain ⟨f1, tr1, hgo, hcount, ext, hext⟩ :=
          goAccounts_trim_count checkValidTx isWhitelisted getBalance
            getMinimumBalance txs rest f2
            (tr ++ failedTxs checkValidTx itemB 0 ++ itemB)
        refine ⟨f1, tr1, hgo, ?_, ?_⟩
        · intro x hx
          by_contra hsrc
          have hsrc2 : srcF B x = true := by
            cases h2 : srcF B x
            · exact absurd h2 hsrc
            · rfl
          have hcx : f2.mTransactions.count x = 0 := by
            rw [hf2, foldl_removeTx_txs, foldl_removeTx_txs,
              count_diff_list, count_diff_list]
            have := hcnt x hsrc2
            omega
          have h1 : f1.mTransactions.count x = 0 :=
            Nat.le_zero.1 (hcx ▸ hcount x)
          exact absurd hx (List.count_eq_zero.1 h1)
        · intro x hx
          rw [hext]
          exact List.mem_append_left _
            (List.mem_append_right _ (hitem ▸ hx))
      · have hArest : A ∈ rest := by
          rcases List.mem_cons.1 hmem with h | h
          · exact absurd h.symm hBA
          · exact h
        dsimp only
        split
        · exact ih _ _
            (fun x hx => Nat.le_trans
              (by rw [foldl_removeTx_txs, foldl_removeTx_txs,
                    count_diff_list, count_diff_list]
                  omega)
              (hcnt x hx)) hArest
        · exact ih _ _
            (fun x hx => Nat.le_trans
              (by rw [foldl_removeTx_txs, count_diff_list]
                  omega)
              (hcnt x hx)) hArest

end ValidationLemmas

/-! ## Claim C6 -/

/-- Claim C6: when `trimInvalid` detects an account whose non-whitelisted
fee total exceeds its spendable balance (the balance check on the
account's seq-sorted list from the canonical snapshot fires), every
transaction of that account is removed from the set — not only a suffix —
and all of the account's transactions are appended to the `trimmed`
out-parameter. -/
theorem trimInvalid_insufficient_removes_whole_account
    (checkValidTx : Tx → SequenceNumber → Bool) (isWhitelisted : Tx → Bool)
    (getBalance getMinimumBalance : Tx → Int) (s : TxSetFrame)
    (trimmed0 : List Tx) (A : AccountID)
    (hbad : balanceBad checkValidTx isWhitelisted getBalance
      getMinimumBalance
      (((sortForHash s).mTransactions.filter (srcF A)).insertionSort seqLe) =
      true) :
    (∀ tx ∈ (trimInvalid checkValidTx isWhitelisted getBalance
        getMinimumBalance s trimmed0).1.mTransactions, srcF A tx = false) ∧
    (∀ tx ∈ ((sortForHash s).mTransactions.filter (srcF A)).insertionSort
        seqLe,
      tx ∈ (trimInvalid checkValidTx isWhitelisted getBalance
        getMinimumBalance s trimmed0).2) := by
  have hitem_ne :
      ((sortForHash s).mTransactions.filter (srcF A)).insertionSort seqLe ≠
        [] := by
    intro hc
    rw [hc] at hbad
    exact balanceBad_ne_nil checkValidTx isWhitelisted getBalance
      getMinimumBalance hbad
  have hA : A ∈ sortedAccounts (sortForHash s).mTransactions := by
    obtain ⟨tx0, htx0⟩ := List.exists_mem_of_ne_nil _ hitem_ne
    rw [List.mem_insertionSort] at htx0
    have hsrc := List.of_mem_filter htx0
    have hmem := List.mem_of_mem_filter htx0
    rw [sortedAccounts, List.mem_insertionSort, List.mem_dedup]
    exact List.mem_map.2 ⟨tx0, hmem, by simpa [srcF] using hsrc⟩
  have hsorted : hashesNonDecreasing 0 (sortForHash s).mTransactions =
      true := by
    apply hashesNonDecreasing_sorted
    · exact List.sorted_insertionSort hashLe s.mTransactions
    · intro t _
      exact Nat.zero_le _
  have hcnt : ∀ x : Tx, srcF A x = true →
      (sortForHash s).mTransactions.count x ≤
        (((sortForHash s).mTransactions.filter (srcF A)).insertionSort
          seqLe).count x := by
    intro x hx
    have hp : ((((sortForHash s).mTransactions.filter
        (srcF A)).insertionSort seqLe)).count x =
        ((sortForHash s).mTransactions.filter (srcF A)).count x :=
      (List.perm_insertionSort seqLe _).count_eq x
    rw [hp, List.count_filter hx]
  obtain ⟨f1, tr1, hgo, hnoA, htr⟩ :=
    goAccounts_trim_insufficient checkValidTx isWhitelisted getBalance
      getMinimumBalance (sortForHash s).mTransactions A
      (sortedAccounts (sortForHash s).mTransactions) (sortForHash s)
      trimmed0 hcnt hA hbad
  unfold trimInvalid checkOrTrim
  dsimp only
  rw [if_pos hsorted, hgo]
  exact ⟨hnoA, htr⟩

/-- Witness for C6: account 1 owns `exTx1` (fee 10) and `exTx4` (fee 11),
its balance is 5 — both transactions are removed and both are reported. -/
theorem trimInvalid_insufficient_removes_whole_account_witness :
    balanceBad (fun t ls => decide (ls < t.seqNum)) (fun _ => false)
      (fun _ => 5) (fun _ => 0)
      (((sortForHash ⟨9, [exTx1, exTx4], false, 0⟩).mTransactions.filter
        (srcF 1)).insertionSort seqLe) = true ∧
    ((∀ tx ∈ (trimInvalid (fun t ls => decide (ls < t.seqNum))
        (fun _ => false) (fun _ => 5) (fun _ => 0)
        ⟨9, [exTx1, exTx4], false, 0⟩ []).1.mTransactions,
        srcF 1 tx = false) ∧
     (∀ tx ∈ ((sortForHash
          ⟨9, [exTx1, exTx4], false, 0⟩).mTransactions.filter
          (srcF 1)).insertionSort seqLe,
        tx ∈ (trimInvalid (fun t ls => decide (ls < t.seqNum))
          (fun _ => false) (fun _ => 5) (fun _ => 0)
          ⟨9, [exTx1, exTx4], false, 0⟩ []).2)) :=
  ⟨by decide,
   trimInvalid_insufficient_removes_whole_account
     (fun t ls => decide (ls < t.seqNum)) (fun _ => false) (fun _ => 5)
     (fun _ => 0) ⟨9, [exTx1, exTx4], false, 0⟩ [] 1 (by decide)⟩

/-! ## Claim C10 -/

/-- Claim C10: in the per-account processing of `checkOrTrim` (with an
`onInvalid` callback that always elects to continue), the
insufficient-balance callback runs only when at least one of the
account's transactions passed `checkValid`: when all of them fail, the
result does not depend on the `onInsufficientBalance` callback at all;
and the `lastTx` whose source-account balance the check examines is the
last transaction that passed. -/
theorem checkOrTrim_balance_needs_passing_tx {σ : Type}
    (checkValidTx : Tx → SequenceNumber → Bool) (isWhitelisted : Tx → Bool)
    (getBalance getMinimumBalance : Tx → Int)
    (onInvalid : Tx → SequenceNumber → σ → Bool × σ)
    (hcont : ∀ tx ls st, (onInvalid tx ls st).1 = true)
    (item : List Tx) (st : σ) :
    ((∀ tx ∈ item, checkValidTx tx 0 = false) →
      ∀ g₁ g₂ : List Tx → σ → Bool × σ,
        processAccount checkValidTx isWhitelisted getBalance
          getMinimumBalance onInvalid g₁ item st =
        processAccount checkValidTx isWhitelisted getBalance
          getMinimumBalance onInvalid g₂ item st) ∧
    ∃ acc : LoopSt σ,
      checkAccountTxs checkValidTx isWhitelisted onInvalid item
        ⟨none, 0, 0, st⟩ = .ok acc ∧
      acc.lastTx = (passedTxs checkValidTx item 0).getLast? := by
  have hloop := checkAccountTxs_cont checkValidTx isWhitelisted onInvalid
    hcont item ⟨none, 0, 0, st⟩
  have hlast : (scanFrom checkValidTx isWhitelisted item (none, 0, 0)).1 =
      (passedTxs checkValidTx item 0).getLast? := by
    rw [scanFrom_lastTx]
    exact Option.or_none
  constructor
  · intro hfail g₁ g₂
    have hnil : passedTxs checkValidTx item 0 = [] :=
      passedTxs_nil_of_fail checkValidTx hfail
    unfold processAccount
    rw [hloop]
    dsimp only
    rw [hlast, hnil, List.getLast?_nil]
  · exact ⟨_, hloop, hlast⟩

/-- Witness for C10: one transaction that always fails `checkValid`; the
result is the same for two different insufficient-balance callbacks, and
the loop's `lastTx` is `none`. -/
theorem checkOrTrim_balance_needs_passing_tx_witness :
    (processAccount (fun _ _ => false) (fun _ => false) (fun _ => 100)
        (fun _ => 0) (fun _ _ st => (true, st))
        (fun _ st => (false, st + 1)) [exTx1] (0 : Nat) =
      processAccount (fun _ _ => false) (fun _ => false) (fun _ => 100)
        (fun _ => 0) (fun _ _ st => (true, st))
        (fun _ st => (true, st + 2)) [exTx1] (0 : Nat)) ∧
    ∃ acc : LoopSt Nat,
      checkAccountTxs (fun _ _ => false) (fun _ => false)
        (fun _ _ st => (true, st)) [exTx1] ⟨none, 0, 0, 0⟩ = .ok acc ∧
      acc.lastTx = (passedTxs (fun _ _ => false) [exTx1] 0).getLast? :=
  ⟨(checkOrTrim_balance_needs_passing_tx (fun _ _ => false) (fun _ => false)
      (fun _ => 100) (fun _ => 0) (fun _ _ st => (true, st))
      (fun _ _ _ => rfl) [exTx1] 0).1 (fun _ _ => rfl)
      (fun _ st => (false, st + 1)) (fun _ st => (true, st + 2)),
   (checkOrTrim_balance_needs_passing_tx (fun _ _ => false) (fun _ => false)
      (fun _ => 100) (fun _ => 0) (fun _ _ st => (true, st))
      (fun _ _ _ => rfl) [exTx1] 0).2⟩

/-! ## Sorted lists with injective keys, and per-batch determinism -/

/-- Two sorted permutations of each other are equal when the sort key
takes pairwise-distinct values. -/
theorem eq_of_perm_sorted_nodupKey (key : Tx → Nat) {l1 l2 : List Tx}
    (hp : l1.Perm l2)
    (hs1 : l1.Sorted (fun a b => key a ≤ key b))
    (hs2 : l2.Sorted (fun a b => key a ≤ key b))
    (hnd : (l1.map key).Nodup) : l1 = l2 := by
  have hnd2 : (l2.map key).Nodup := ((hp.map key).nodup_iff).1 hnd
  have hne1 : l1.Pairwise (fun a b => key a ≠ key b) := List.pairwise_map.1 hnd
  have hne2 : l2.Pairwise (fun a b => key a ≠ key b) :=
    List.pairwise_map.1 hnd2
  have hlt1 : l1.Sorted (fun a b => key a < key b) :=
    (hs1.and hne1).imp (fun hab => lt_of_le_of_ne hab.1 hab.2)
  have hlt2 : l2.Sorted (fun a b => key a < key b) :=
    (hs2.and hne2).imp (fun hab => lt_of_le_of_ne hab.1 hab.2)
  exact @List.eq_of_perm_of_sorted Tx (fun a b => key a < key b)
    ⟨fun _ _ hab hba => absurd (Nat.lt_trans hab hba) (Nat.lt_irrefl _)⟩
    _ _ hp hlt1 hlt2

/-- The per-account content of each batch, by batch index: the `k`-th
batch holds exactly the `k`-th transaction of each account (in the order
of the list the batches were built from). -/
theorem batch_getD_filter (txs : List Tx) (A : AccountID) (k : Nat) :
    ((buildBatches txs).getD k []).filter (srcF A) =
      ((txs.filter (srcF A)).map (fun t => ([t] : List Tx))).getD k [] := by
  have hlenA : (txs.filter (srcF A)).length ≤ (buildBatches txs).length :=
    (buildBatches_inv txs A).2.1
  by_cases hk : k < (buildBatches txs).length
  · rw [List.getD_eq_getElem _ _ hk]
    have hkm : k < ((buildBatches txs).map (List.filter (srcF A))).length := by
      rw [List.length_map]
      exact hk
    have h2 : List.filter (srcF A) ((buildBatches txs)[k]) =
        ((buildBatches txs).map (List.filter (srcF A)))[k] :=
      (List.getElem_map ..).symm
    rw [h2, List.getElem_of_eq (buildBatches_filter txs A)]
    by_cases hka : k <
        ((txs.filter (srcF A)).map (fun t => ([t] : List Tx))).length
    · rw [List.getElem_append_left hka, List.getD_eq_getElem _ _ hka]
    · rw [List.getElem_append_right (Nat.le_of_not_lt hka),
        List.getElem_replicate,
        List.getD_eq_default _ _ (Nat.le_of_not_lt hka)]
  · have hka : ((txs.filter (srcF A)).map (fun t => ([t] : List Tx))).length
        ≤ k := by
      rw [List.length_map]
      exact Nat.le_trans hlenA (Nat.le_of_not_lt hk)
    rw [List.getD_eq_default _ _ (Nat.le_of_not_lt hk), List.filter_nil,
      List.getD_eq_default _ _ hka]

/-- When two lists agree account-by-account, their batches agree up to
permutation, index by index. -/
theorem batch_getD_perm {l1 l2 : List Tx}
    (hf : ∀ A : AccountID, l1.filter (srcF A) = l2.filter (srcF A))
    (k : Nat) :
    ((buildBatches l1).getD k []).Perm ((buildBatches l2).getD k []) := by
  rw [List.perm_iff_count]
  intro x
  have hsx : srcF x.sourceID x = true := by simp [srcF]
  calc ((buildBatches l1).getD k []).count x
      = (((buildBatches l1).getD k []).filter (srcF x.sourceID)).count x :=
        (List.count_filter hsx).symm
    _ = (((l1.filter (srcF x.sourceID)).map
          (fun t => ([t] : List Tx))).getD k []).count x := by
        rw [batch_getD_filter]
    _ = (((l2.filter (srcF x.sourceID)).map
          (fun t => ([t] : List Tx))).getD k []).count x := by
        rw [hf x.sourceID]
    _ = (((buildBatches l2).getD k []).filter (srcF x.sourceID)).count x := by
        rw [batch_getD_filter]
    _ = ((buildBatches l2).getD k []).count x := List.count_filter hsx

/-- Every batch is a sub-multiset of the list it was built from. -/
theorem batch_getD_subperm (txs : List Tx) (k : Nat) :
    ((buildBatches txs).getD k []).Subperm txs := by
  rw [← Multiset.coe_le, Multiset.le_iff_count]
  intro x
  simp only [Multiset.coe_count]
  have hsx : srcF x.sourceID x = true := by simp [srcF]
  have h1 : ((buildBatches txs).getD k []).count x =
      (((txs.filter (srcF x.sourceID)).map
        (fun t => ([t] : List Tx))).getD k []).count x := by
    rw [← batch_getD_filter txs x.sourceID k]
    exact (List.count_filter hsx).symm
  rw [h1]
  by_cases hk2 : k <
      ((txs.filter (srcF x.sourceID)).map (fun t => ([t] : List Tx))).length
  · rw [List.getD_eq_getElem _ _ hk2]
    have hkL : k < (txs.filter (srcF x.sourceID)).length := by
      rw [List.length_map] at hk2
      exact hk2
    have hel : ((txs.filter (srcF x.sourceID)).map
        (fun t => ([t] : List Tx)))[k] = [(txs.filter (srcF x.sourceID))[k]] :=
      List.getElem_map ..
    rw [hel]
    by_cases hx : x = (txs.filter (srcF x.sourceID))[k]
    · have hmem : x ∈ txs := by
        rw [hx]
        exact List.mem_of_mem_filter (List.getElem_mem hkL)
      have hpos : 0 < txs.count x := List.count_pos_iff.2 hmem
      have hone : ([(txs.filter (srcF x.sourceID))[k]] : List Tx).count x ≤
          1 := by
        rw [← hx]
        simp
      omega
    · have hzero : ([(txs.filter (srcF x.sourceID))[k]] : List Tx).count x =
          0 := by
        simp [List.count_cons, hx]
      rw [hzero]
      exact Nat.zero_le _
  · rw [List.getD_eq_default _ _ (Nat.le_of_not_lt hk2)]
    simp

/-- Full hashes XORed with the set hash are pairwise distinct on any
sub-multiset of a list with pairwise-distinct full hashes. -/
theorem nodup_xorKey_of_subperm {b txs : List Tx} (hsub : b.Subperm txs)
    (hnd : (txs.map Tx.fullHash).Nodup) (h : Hash) :
    (b.map (fun t => t.fullHash ^^^ h)).Nodup := by
  obtain ⟨l, hp, hs⟩ := hsub
  have hnd_l : (l.map Tx.fullHash).Nodup := hnd.sublist (hs.map Tx.fullHash)
  have hnd_b : (b.map Tx.fullHash).Nodup :=
    ((hp.map Tx.fullHash).nodup_iff).1 hnd_l
  have hinj : Function.Injective (fun a : Nat => a ^^^ h) := by
    intro a1 a2 hab
    have h2 := congrArg (fun y => y ^^^ h) hab
    simpa [Nat.xor_cancel_right] using h2
  have hmm : (b.map Tx.fullHash).map (fun a => a ^^^ h) =
      b.map (fun t => t.fullHash ^^^ h) := by
    rw [List.map_map]
    rfl
  rw [← hmm]
  exact hnd_b.map hinj

/-- Flattened images agree when the entries agree pointwise by index
(missing entries counting as the image of `[]`, itself empty). -/
theorem flatten_eq_of_getD (g : List Tx → List Tx) (hg : g [] = []) :
    ∀ L1 L2 : List (List Tx),
      (∀ k, g (L1.getD k []) = g (L2.getD k [])) →
      (L1.map g).flatten = (L2.map g).flatten := by
  intro L1
  induction L1 with
  | nil =>
      intro L2 h
      have hall : ∀ l ∈ L2.map g, l = [] := by
        intro l hl
        obtain ⟨c, hc, rfl⟩ := List.mem_map.1 hl
        obtain ⟨i, hi, hci⟩ := List.mem_iff_getElem.1 hc
        have h2 := h i
        rw [List.getD_eq_getElem _ _ hi, hci] at h2
        rw [show (([] : List (List Tx)).getD i []) = [] from rfl, hg] at h2
        exact h2.symm
      simp only [List.map_nil, List.flatten_nil]
      exact (List.flatten_eq_nil_iff.2 hall).symm
  | cons b L1' ih =>
      intro L2 h
      cases L2 with
      | nil =>
          have hall : ∀ l ∈ (b :: L1').map g, l = [] := by
            intro l hl
            obtain ⟨c, hc, rfl⟩ := List.mem_map.1 hl
            obtain ⟨i, hi, hci⟩ := List.mem_iff_getElem.1 hc
            have h2 := h i
            rw [List.getD_eq_getElem _ _ hi, hci] at h2
            rw [show (([] : List (List Tx)).getD i []) = [] from rfl, hg]
              at h2
            exact h2
          simp only [List.map_nil, List.flatten_nil]
          exact List.flatten_eq_nil_iff.2 hall
      | cons c L2' =>
          have h0 := h 0
          rw [List.getD_cons_zero, List.getD_cons_zero] at h0
          have hsucc : ∀ k, g (L1'.getD k []) = g (L2'.getD k []) := by
            intro k
            have h2 := h (k + 1)
            rwa [List.getD_cons_succ, List.getD_cons_succ] at h2
          simp only [List.map_cons, List.flatten_cons]
          rw [h0, ih L2' hsucc]

/-! ## Claim C8 -/

/-- Counterexample to C8 as stated: `exFrameInv` and `exFrameSwap` hold
the same transactions (account 1's `exTx1` and `exTx2`, both with
seqNum 5) in opposite stored orders, so their canonical contents are
equal — same `previousLedgerHash` and the same canonical (full-hash
sorted) list — yet the apply lists differ: the seq-sorted copy is taken
from the stored order, so the equal-seqNum transactions land in batches
0 and 1 in stored order. -/
theorem sortForApply_not_deterministic_counterexample :
    exFrameInv.mPreviousLedgerHash = exFrameSwap.mPreviousLedgerHash ∧
    exFrameInv.mTransactions.Perm exFrameSwap.mTransactions ∧
    exFrameInv.mTransactions.insertionSort hashLe =
      exFrameSwap.mTransactions.insertionSort hashLe ∧
    (sortForApply exSha exFrameInv).1 ≠ (sortForApply exSha exFrameSwap).1 :=
  ⟨rfl, List.Perm.swap exTx2 exTx1 [], by decide, by decide⟩

/-- Claim C8 (amended): `sortForApply` is deterministic across stored
orders provided every account's transactions carry pairwise-distinct
sequence numbers: two cache-coherent frames with the same
`previousLedgerHash`, transaction lists that are permutations of one
another with pairwise-distinct full hashes (equal canonical contents),
and per-account distinct seqNums, produce equal apply lists. -/
theorem sortForApply_deterministic_of_nodup_seq
    (sha256 : Hash → List Envelope → Hash) (s1 s2 : TxSetFrame)
    (hwf1 : WF sha256 s1) (hwf2 : WF sha256 s2)
    (hprev : s1.mPreviousLedgerHash = s2.mPreviousLedgerHash)
    (htxs : s1.mTransactions.Perm s2.mTransactions)
    (hhash : (s1.mTransactions.map Tx.fullHash).Nodup)
    (hseq : ∀ A : AccountID,
      ((s1.mTransactions.filter (srcF A)).map Tx.seqNum).Nodup) :
    (sortForApply sha256 s1).1 = (sortForApply sha256 s2).1 := by
  have hsortedEq : s1.mTransactions.insertionSort hashLe =
      s2.mTransactions.insertionSort hashLe := by
    apply eq_of_perm_sorted_nodupKey Tx.fullHash
    · exact (List.perm_insertionSort hashLe _).trans
        (htxs.trans (List.perm_insertionSort hashLe _).symm)
    · exact List.sorted_insertionSort hashLe _
    · exact List.sorted_insertionSort hashLe _
    · exact (((List.perm_insertionSort hashLe
        s1.mTransactions).map Tx.fullHash).nodup_iff).2 hhash
  have hh : (getContentsHash sha256 s1).1 = (getContentsHash sha256 s2).1 := by
    rw [fst_getContentsHash sha256 hwf1, fst_getContentsHash sha256 hwf2]
    unfold computeContentsHash
    rw [hprev, hsortedEq]
  have hfilters : ∀ A : AccountID,
      (s1.mTransactions.insertionSort seqLe).filter (srcF A) =
      (s2.mTransactions.insertionSort seqLe).filter (srcF A) := by
    intro A
    apply eq_of_perm_sorted_nodupKey Tx.seqNum
    · exact ((List.perm_insertionSort seqLe _).filter _).trans
        ((htxs.filter _).trans
          ((List.perm_insertionSort seqLe _).filter _).symm)
    · exact (List.sorted_insertionSort seqLe _).sublist
        (List.filter_sublist _)
    · exact (List.sorted_insertionSort seqLe _).sublist
        (List.filter_sublist _)
    · exact ((((List.perm_insertionSort seqLe
        s1.mTransactions).filter _).map Tx.seqNum).nodup_iff).2 (hseq A)
  rw [sortForApply_eq, sortForApply_eq]
  dsimp only
  rw [hh]
  apply flatten_eq_of_getD _ rfl
  intro k
  apply eq_of_perm_sorted_nodupKey
    (fun t => t.fullHash ^^^ (getContentsHash sha256 s2).1)
  · exact (List.perm_insertionSort _ _).trans
      ((batch_getD_perm hfilters k).trans (List.perm_insertionSort _ _).symm)
  · exact List.sorted_insertionSort
      (xorLe ((getContentsHash sha256 s2).1)) _
  · exact List.sorted_insertionSort
      (xorLe ((getContentsHash sha256 s2).1)) _
  · have hsub : ((buildBatches
        (s1.mTransactions.insertionSort seqLe)).getD k []).Subperm
        s1.mTransactions :=
      (batch_getD_subperm _ k).trans
        (List.perm_insertionSort seqLe _).subperm
    have hnd := nodup_xorKey_of_subperm hsub hhash
      ((getContentsHash sha256 s2).1)
    exact (((List.perm_insertionSort _ _).map _).nodup_iff).2 hnd

/-- Witness for C8 (amended): account 1 with distinct seqNums 5 and 6
held in two different stored orders — the apply lists agree. -/
theorem sortForApply_deterministic_of_nodup_seq_witness :
    (sortForApply exSha ⟨9, [exTx1, exTx4], false, 0⟩).1 =
      (sortForApply exSha ⟨9, [exTx4, exTx1], false, 0⟩).1 :=
  sortForApply_deterministic_of_nodup_seq exSha
    ⟨9, [exTx1, exTx4], false, 0⟩ ⟨9, [exTx4, exTx1], false, 0⟩
    (fun h => by cases h) (fun h => by cases h) rfl
    (List.Perm.swap exTx4 exTx1 []) (by decide)
    (fun A => by
      by_cases hA : A = 1
      · subst hA
        decide
      · have h1 : srcF A exTx1 = false := by
          simp only [srcF, exTx1, beq_eq_false_iff_ne, ne_eq]
          exact fun hc => hA hc.symm
        have h4 : srcF A exTx4 = false := by
          simp only [srcF, exTx4, beq_eq_false_iff_ne, ne_eq]
          exact fun hc => hA hc.symm
        have hfilter : [exTx1, exTx4].filter (srcF A) = [] := by
          simp [List.filter_cons, h1, h4]
        rw [hfilter]
        exact List.nodup_nil)

end TxSetSpec
